import Mathlib

/-!
Filtered delay plugin: a verification development.

Shallow embedding of `Source/PluginProcessor.{h,cpp}`: the `DelayEffect` engine
(circular delay buffer, filtered feedback path, wet/dry mix) and the parameter
mapper `CircularBufferAudioProcessor::readAPVTS` with the tail-length report
`getTailLengthSeconds`.

Modelling conventions.

* Sample values and control values live in a linearly ordered field `α` with a
  floor function (`ℚ` for evaluation, `ℝ` where a real power is needed).  The
  arithmetic is exact, except in `setDelayTime`: elsewhere the rounding of
  `float`/`double` is not modelled, and the literals `0.001f`, `0.995f` are the
  fractions `1/1000`, `199/200`.
* In `setDelayTime` the stored integer depends on the rounding at ordinary
  requests (the literal `0.001f` is not `1/1000`: 33 ms at 48 kHz gives 1583,
  not 1584), so the expression `(int)(delayTime * 0.001f * sampleRate)` is
  modelled with the machine arithmetic (`delaySamplesOf`): the `float` product
  `delayTime * 0.001f` and the `double` product with `sampleRate` are rounded
  to nearest, ties to even (`toFloat`, `toDouble`, with `float001` the value of
  the literal `0.001f`), and the conversion to `int` is `castInt`.  The
  arguments stand for the values of the `float` argument and of the `double`
  member `sampleRate`.
* `int` values are `Int`; 32-bit wrap-around of integer arithmetic is not
  modelled (buffer sizes and block sizes are far below `2^31`).  In
  `setDelayTime` a floating value outside the range of `int` is converted by
  `castInt` to `-2^31`, the value the x86-64 conversion instruction returns
  (the C++ standard leaves the conversion undefined); `jlimit` then stores the
  delay length 1.
* An operation whose C++ behaviour is undefined (an array access out of range,
  `%` by zero, a negative size handed to a JUCE container) returns `none`.
* The JUCE IIR filter (`dsp::IIR::Filter<float>`, `Coefficients::makeHighPass`,
  `makeLowPass`), `std::pow` and `std::log` are library code outside the
  repository; they are parameters of the model (`IIRKit`, `pow`, `log`).
* `delayBuffer`, `hpFilters` and `lpFilters` are sized together by `prepare`
  and by nothing else, so the model keeps them as one list of per-channel
  records (`Channel`), plus the per-channel length `delayBufferSize`
  (`delayBuffer.getNumSamples()`).
* A block is an `AudioBuffer`: `numSamples` and the list of channels.  The
  sample loop of `process` runs over the samples of a channel in order; for a
  rectangular buffer (`AudioBuffer.Rect`, which JUCE guarantees) these are the
  indices `0 .. numSamples - 1`.
* `processTrace` is `process` instrumented: it returns, for every channel and
  loop iteration, the values the loop body computes (`SampleTrace`); the
  output sample of an iteration is its `out` field (`process_output`).
-/

namespace FilteredDelay

/-! ## Library functions used by the source -/

/-- JUCE `jlimit (lowerLimit, upperLimit, valueToConstrain)`:
`v < lo ? lo : (hi < v ? hi : v)`. -/
def jlimit {β : Type} [LinearOrder β] (lowerLimit upperLimit valueToConstrain : β) : β :=
  if valueToConstrain < lowerLimit then lowerLimit
  else if upperLimit < valueToConstrain then upperLimit
  else valueToConstrain

/-- The C++ conversion `(int) x` of a floating value: truncation toward zero. -/
def truncToInt {α : Type} [LinearOrderedField α] [FloorRing α] (x : α) : Int :=
  if 0 ≤ x then Int.floor x else Int.ceil x

/-- Rounding to the nearest integer, ties to the even one: the IEEE 754 default
rounding direction. -/
def roundHalfEven {α : Type} [LinearOrderedField α] [FloorRing α] (q : α) : Int :=
  if q - (Int.floor q : α) < 1 / 2 then Int.floor q
  else if 1 / 2 < q - (Int.floor q : α) then Int.floor q + 1
  else if Int.floor q % 2 = 0 then Int.floor q
  else Int.floor q + 1

/-- Rounding of an exact value to the binary floating-point format with `p`
significant bits and least normal exponent `emin`: the result is the multiple
of `2 ^ k` nearest to `x` (ties to even), where `k` is the exponent of the last
place, `max (floor (log2 |x|)) emin - (p - 1)` (gradual underflow below
`2 ^ emin`).  The exponent is not bounded above: a caller tests for overflow. -/
def roundBits {α : Type} [LinearOrderedField α] [FloorRing α] (p : Nat) (emin : Int)
    (x : α) : α :=
  if x = 0 then 0
  else
    ((roundHalfEven (x / (2 : α) ^ (max (Int.log 2 |x|) emin - ((p : Int) - 1))) : Int) : α)
      * (2 : α) ^ (max (Int.log 2 |x|) emin - ((p : Int) - 1))

/-- Rounding to `float` (IEEE 754 binary32: 24 significant bits, least normal
exponent -126). -/
def toFloat {α : Type} [LinearOrderedField α] [FloorRing α] (x : α) : α :=
  roundBits 24 (-126) x

/-- Rounding to `double` (IEEE 754 binary64: 53 significant bits, least normal
exponent -1022). -/
def toDouble {α : Type} [LinearOrderedField α] [FloorRing α] (x : α) : α :=
  roundBits 53 (-1022) x

/-- The value of the literal `0.001f`: the `float` nearest to `1/1000`, which is
`8589935 * 2 ^ (-33)`. -/
def float001 {α : Type} [LinearOrderedField α] : α :=
  8589935 / 8589934592

/-- The C++ conversion `(int) x` of a `double` to the 32-bit `int`: truncation
toward zero when the result fits, and `-2147483648` otherwise (the value the
x86-64 conversion returns for a value out of range, an infinity or a NaN). -/
def castInt {α : Type} [LinearOrderedField α] [FloorRing α] (x : α) : Int :=
  if -2147483648 ≤ truncToInt x ∧ truncToInt x ≤ 2147483647 then truncToInt x
  else -2147483648

/-- The part of JUCE `dsp::IIR` the engine uses.  `κ` is the type of a
coefficient set, `σ` the type of a filter history. `processSample c s x`
returns the output sample and the new history. -/
structure IIRKit (α κ σ : Type) where
  makeHighPass : α → α → κ
  makeLowPass : α → α → κ
  resetState : σ
  processSample : κ → σ → α → α × σ

/-- One `dsp::IIR::Filter<float>` object: its coefficients and its history. -/
structure Filter (κ σ : Type) where
  coefficients : κ
  state : σ

/-- JUCE `AudioBuffer<float>`: `numSamples` samples in each of the channels. -/
structure AudioBuffer (α : Type) where
  numSamples : Nat
  channels : List (List α)

/-- An `AudioBuffer` is rectangular: every channel holds `numSamples` samples. -/
def AudioBuffer.Rect {α : Type} (b : AudioBuffer α) : Prop :=
  ∀ c ∈ b.channels, c.length = b.numSamples

/-! ## The engine state -/

/-- Per-channel storage of the engine: row `channel` of `delayBuffer`,
`hpFilters[channel]` and `lpFilters[channel]`. -/
structure Channel (α κ σ : Type) where
  delayData : List α
  hp : Filter κ σ
  lp : Filter κ σ

/-- The private members of `class DelayEffect`. -/
structure DelayEffect (α κ σ : Type) where
  delayBufferSize : Nat
  channels : List (Channel α κ σ)
  writePosition : Int
  sampleRate : α
  delayInSamples : Int
  feedback : α
  wet : α
  dry : α
  hpCutoff : α
  lpCutoff : α
  filtersPrepared : Bool

/-- One iteration of the sample loop of `process`, with every intermediate
value the loop body computes. -/
structure SampleTrace (α : Type) where
  readPos : Int
  localWritePos : Int
  input : α
  dly : α
  dlyWet : α
  out : α
  fb : α
  written : α

/-- The raw parameter values `readAPVTS` reads from the value tree. -/
structure RawParams (α : Type) where
  delayTime : α
  decayTimeMs : α
  wet : α
  dry : α
  hipass : α
  lowpass : α

section Engine

variable {α κ σ : Type} [LinearOrderedField α]

/-- A default-constructed `DelayEffect` (the member initialisers of the header). -/
def DelayEffect.initial : DelayEffect α κ σ where
  delayBufferSize := 0
  channels := []
  writePosition := 0
  sampleRate := 44100
  delayInSamples := 0
  feedback := 1 / 2
  wet := 50
  dry := 100
  hpCutoff := 60
  lpCutoff := 8000
  filtersPrepared := false

/-- The member `DelayEffect::prepare (sr, channels, maxDelayTime)`.  A negative channel
count or sample count violates the precondition of the JUCE containers. -/
def prepare [FloorRing α] (K : IIRKit α κ σ) (e : DelayEffect α κ σ) (sr : α) (channels : Int)
    (maxDelayTime : α) : Option (DelayEffect α κ σ) :=
  let delaySamples : Int := truncToInt (maxDelayTime * sr)
  if channels < 0 ∨ delaySamples < 0 then none
  else
    some { e with
      sampleRate := sr
      delayBufferSize := delaySamples.toNat
      writePosition := 0
      channels := List.replicate channels.toNat
        { delayData := List.replicate delaySamples.toNat 0
          hp := { coefficients := K.makeHighPass sr e.hpCutoff, state := K.resetState }
          lp := { coefficients := K.makeLowPass sr e.lpCutoff, state := K.resetState } }
      filtersPrepared := true }

/-- The expression `(int)(delayTime * 0.001f * sampleRate)` of `setDelayTime`,
with `delayTime` a `float` and `sampleRate` a `double`.  The product
`delayTime * 0.001f` is a `float` product, rounded to `float`; it is then
converted to `double` (exactly) and multiplied by `sampleRate`, the product
rounded to `double`; the result is converted to `int`.  When the `float`
product overflows (magnitude `2 ^ 128` or more after rounding) it is an
infinity, the `double` product is an infinity or a NaN, and the conversion
gives `-2147483648`.  A `double` product that overflows is out of the range of
`int` as well, so `castInt` of the unbounded rounding gives the same value. -/
def delaySamplesOf [FloorRing α] (delayTime sampleRate : α) : Int :=
  if (2 : α) ^ 128 ≤ |toFloat (delayTime * float001)| then -2147483648
  else castInt (toDouble (toFloat (delayTime * float001) * sampleRate))

/-- The member `DelayEffect::setDelayTime (delayTime)`, `delayTime` in milliseconds:
`delayInSamples = (int)(delayTime * 0.001f * sampleRate)`, then
`delayInSamples = jlimit (1, delayBuffer.getNumSamples() - 1, delayInSamples)`. -/
def setDelayTime [FloorRing α] (e : DelayEffect α κ σ) (delayTime : α) : DelayEffect α κ σ :=
  { e with
    delayInSamples :=
      jlimit 1 ((e.delayBufferSize : Int) - 1) (delaySamplesOf delayTime e.sampleRate) }

/-- The member `DelayEffect::setFeedback`. -/
def setFeedback (e : DelayEffect α κ σ) (feedbackAmount : α) : DelayEffect α κ σ :=
  { e with feedback := jlimit 0 (199 / 200) feedbackAmount }

/-- The member `DelayEffect::setWet`. -/
def setWet (e : DelayEffect α κ σ) (wetAmount : α) : DelayEffect α κ σ :=
  { e with wet := jlimit 0 1 (wetAmount / 100) }

/-- The member `DelayEffect::setDry`. -/
def setDry (e : DelayEffect α κ σ) (dryAmount : α) : DelayEffect α κ σ :=
  { e with dry := jlimit 0 1 (dryAmount / 100) }

/-- The member `DelayEffect::setHighPassCutoff`. -/
def setHighPassCutoff (K : IIRKit α κ σ) (e : DelayEffect α κ σ) (hpHz : α) :
    DelayEffect α κ σ :=
  let e1 := { e with hpCutoff := jlimit 20 10000 hpHz }
  if !e1.filtersPrepared || decide (e1.sampleRate ≤ 0) then e1
  else
    let newCoeffs := K.makeHighPass e1.sampleRate e1.hpCutoff
    { e1 with channels := e1.channels.map fun c => { c with hp := { c.hp with coefficients := newCoeffs } } }

/-- The member `DelayEffect::setLowPassCutoff`. -/
def setLowPassCutoff (K : IIRKit α κ σ) (e : DelayEffect α κ σ) (lpHz : α) :
    DelayEffect α κ σ :=
  let e1 := { e with lpCutoff := jlimit 25 20000 lpHz }
  if !e1.filtersPrepared || decide (e1.sampleRate ≤ 0) then e1
  else
    let newCoeffs := K.makeLowPass e1.sampleRate e1.lpCutoff
    { e1 with channels := e1.channels.map fun c => { c with lp := { c.lp with coefficients := newCoeffs } } }

/-- The member `DelayEffect::clear`: `delayBuffer.clear()` and `writePosition = 0`. -/
def clear (e : DelayEffect α κ σ) : DelayEffect α κ σ :=
  { e with
    channels := e.channels.map fun c => { c with delayData := List.replicate c.delayData.length 0 }
    writePosition := 0 }

/-- The member `DelayEffect::getDelayTime`. -/
def getDelayTime (e : DelayEffect α κ σ) : α :=
  (e.delayInSamples : α) / e.sampleRate

/-- The member `DelayEffect::getFeedback`. -/
def getFeedback (e : DelayEffect α κ σ) : α :=
  e.feedback

/-- The read `delayData[i]`. -/
def readAt {β : Type} (xs : List β) (i : Int) : Option β :=
  if 0 ≤ i then xs[i.toNat]? else none

/-- The store `delayData[i] = v`. -/
def writeAt {β : Type} (xs : List β) (i : Int) (v : β) : Option (List β) :=
  if 0 ≤ i ∧ i.toNat < xs.length then some (xs.set i.toNat v) else none

/-- The guarded filter pass of the loop body: when `filtersPrepared`, one
sample through the channel's high-pass and then its low-pass filter. -/
def filterPair (K : IIRKit α κ σ) (prepared : Bool) (hp lp : Filter κ σ) (x : α) :
    α × Filter κ σ × Filter κ σ :=
  if prepared then
    let r1 := K.processSample hp.coefficients hp.state x
    let r2 := K.processSample lp.coefficients lp.state r1.1
    (r2.1, { hp with state := r1.2 }, { lp with state := r2.2 })
  else (x, hp, lp)

/-- The update `if (++localWritePos >= delayBufferSize) localWritePos = 0`. -/
def nextWritePos (delayBufferSize : Int) (localWritePos : Int) : Int :=
  if localWritePos + 1 ≥ delayBufferSize then 0 else localWritePos + 1

/-- The body of the sample loop of `DelayEffect::process` for one channel. -/
def sampleStep (K : IIRKit α κ σ) (e : DelayEffect α κ σ) (c : Channel α κ σ)
    (localWritePos : Int) (x : α) : Option (Channel α κ σ × SampleTrace α) :=
  if e.delayBufferSize = 0 then none
  else
    let readPos := (localWritePos - e.delayInSamples + (e.delayBufferSize : Int)).tmod
      (e.delayBufferSize : Int)
    match readAt c.delayData readPos with
    | none => none
    | some dly =>
      let w := filterPair K e.filtersPrepared c.hp c.lp dly
      let out := e.dry * x + e.wet * w.1
      let f := filterPair K e.filtersPrepared w.2.1 w.2.2 (w.1 * e.feedback)
      match writeAt c.delayData localWritePos (x + f.1) with
      | none => none
      | some d =>
        some ({ delayData := d, hp := f.2.1, lp := f.2.2 },
              { readPos := readPos, localWritePos := localWritePos, input := x, dly := dly,
                dlyWet := w.1, out := out, fb := f.1, written := x + f.1 })

/-- The sample loop of `process` over the samples of one channel, starting at
local write position `w`. -/
def channelLoop (K : IIRKit α κ σ) (e : DelayEffect α κ σ) :
    Channel α κ σ → Int → List α → Option (Channel α κ σ × List (SampleTrace α))
  | c, _, [] => some (c, [])
  | c, w, x :: xs =>
    match sampleStep K e c w x with
    | none => none
    | some (c1, r) =>
      match channelLoop K e c1 (nextWritePos (e.delayBufferSize : Int) w) xs with
      | none => none
      | some (c2, rs) => some (c2, r :: rs)

/-- The channel loop of `process`: channel `k` of the block runs against the
engine's channel `k`; a block with more channels than the engine indexes past
the end of the engine's containers. -/
def processChannels (K : IIRKit α κ σ) (e : DelayEffect α κ σ) :
    List (Channel α κ σ) → List (List α) →
      Option (List (Channel α κ σ) × List (List (SampleTrace α)))
  | cs, [] => some (cs, [])
  | [], _ :: _ => none
  | c :: cs, x :: xs =>
    match channelLoop K e c e.writePosition x with
    | none => none
    | some (c1, tr) =>
      match processChannels K e cs xs with
      | none => none
      | some (cs1, trs) => some (c1 :: cs1, tr :: trs)

/-- The member `DelayEffect::process (buffer)`, returning the new engine state and, per
channel and sample, the values computed by the loop body. -/
def processTrace (K : IIRKit α κ σ) (e : DelayEffect α κ σ) (buffer : AudioBuffer α) :
    Option (DelayEffect α κ σ × List (List (SampleTrace α))) :=
  match processChannels K e e.channels buffer.channels with
  | none => none
  | some (cs, trs) =>
    if e.delayBufferSize = 0 then none
    else
      some ({ e with
                channels := cs
                writePosition :=
                  (e.writePosition + (buffer.numSamples : Int)).tmod (e.delayBufferSize : Int) },
            trs)

/-- The member `DelayEffect::process (buffer)`: the new engine state and the block as the
loop leaves it (`outData[i] = out`). -/
def process (K : IIRKit α κ σ) (e : DelayEffect α κ σ) (buffer : AudioBuffer α) :
    Option (DelayEffect α κ σ × AudioBuffer α) :=
  match processTrace K e buffer with
  | none => none
  | some (e1, trs) =>
    some (e1, { numSamples := buffer.numSamples
                channels := trs.map fun tr => tr.map fun r => r.out })

/-- The feedback computation of `readAPVTS`: `D = max (0.001, decayMs * 0.001)`,
`f = pow (0.001, T / D)`, `f = jlimit (0, 0.995, f)`. -/
def decayFeedback (pow : α → α → α) (T decayMs : α) : α :=
  let D := max (1 / 1000) (decayMs * (1 / 1000))
  jlimit 0 (199 / 200) (pow (1 / 1000) (T / D))

/-- The member `CircularBufferAudioProcessor::readAPVTS`, on the engine `delay`. -/
def readAPVTS [FloorRing α] (K : IIRKit α κ σ) (pow : α → α → α) (e : DelayEffect α κ σ)
    (p : RawParams α) : DelayEffect α κ σ :=
  let e1 := setDelayTime e p.delayTime
  let f := decayFeedback pow (getDelayTime e1) p.decayTimeMs
  let e2 := setFeedback e1 f
  let e3 := setDry (setWet e2 p.wet) p.dry
  setLowPassCutoff K (setHighPassCutoff K e3 p.hipass) p.lowpass

/-! ## Runs of several blocks, and the total forms used in the proofs -/

/-- Consecutive `process` calls, one per block, with no other call in between;
the result lists the per-channel traces block by block. -/
def processAll (K : IIRKit α κ σ) :
    DelayEffect α κ σ → List (AudioBuffer α) →
      Option (DelayEffect α κ σ × List (List (List (SampleTrace α))))
  | e, [] => some (e, [])
  | e, b :: bs =>
    match processTrace K e b with
    | none => none
    | some (e1, tr) =>
      match processAll K e1 bs with
      | none => none
      | some (e2, trs) => some (e2, tr :: trs)

/-- The loop iterations of channel `ch` over a run of blocks, in time order. -/
def channelTrace (ch : Nat) : List (List (List (SampleTrace α))) → List (SampleTrace α)
  | [] => []
  | tr :: trs => tr.getD ch [] ++ channelTrace ch trs

/-- The samples the host supplies on channel `ch` over a run of blocks. -/
def channelInput (ch : Nat) : List (AudioBuffer α) → List α
  | [] => []
  | b :: bs => b.channels.getD ch [] ++ channelInput ch bs

/-- The loop body with its two array accesses taken as in range (it agrees with
`sampleStep` whenever `sampleStep` is defined, see `sampleStep_eq`). -/
def stepT (K : IIRKit α κ σ) (e : DelayEffect α κ σ) (c : Channel α κ σ)
    (localWritePos : Int) (x : α) : Channel α κ σ × SampleTrace α :=
  let readPos := (localWritePos - e.delayInSamples + (e.delayBufferSize : Int)).tmod
      (e.delayBufferSize : Int)
  let dly := c.delayData.getD readPos.toNat 0
  let w := filterPair K e.filtersPrepared c.hp c.lp dly
  let f := filterPair K e.filtersPrepared w.2.1 w.2.2 (w.1 * e.feedback)
  ({ delayData := c.delayData.set localWritePos.toNat (x + f.1), hp := f.2.1, lp := f.2.2 },
   { readPos := readPos, localWritePos := localWritePos, input := x, dly := dly,
     dlyWet := w.1, out := e.dry * x + e.wet * w.1, fb := f.1, written := x + f.1 })

/-- The sample loop built from `stepT` (it agrees with `channelLoop` whenever
`channelLoop` is defined, see `channelLoop_eq`). -/
def loopT (K : IIRKit α κ σ) (e : DelayEffect α κ σ) :
    Channel α κ σ → Int → List α → Channel α κ σ × List (SampleTrace α)
  | c, _, [] => (c, [])
  | c, w, x :: xs =>
    let s := stepT K e c w x
    let r := loopT K e s.1 (nextWritePos (e.delayBufferSize : Int) w) xs
    (r.1, s.2 :: r.2)

/-- Every row of the delay buffer has `delayBufferSize` samples. -/
def DelayEffect.WF (e : DelayEffect α κ σ) : Prop :=
  ∀ c ∈ e.channels, c.delayData.length = e.delayBufferSize

/-- The write cursor is an index into the delay buffer. -/
def DelayEffect.CursorOK (e : DelayEffect α κ σ) : Prop :=
  0 ≤ e.writePosition ∧ e.writePosition < (e.delayBufferSize : Int)

/-- The delay length lies in `[1, capacity - 1]`. -/
def DelayEffect.DelayOK (e : DelayEffect α κ σ) : Prop :=
  1 ≤ e.delayInSamples ∧ e.delayInSamples ≤ (e.delayBufferSize : Int) - 1

/-- The delay length is one for which every read of `process` is in range. -/
def DelayEffect.DelayInRange (e : DelayEffect α κ σ) : Prop :=
  0 ≤ e.delayInSamples ∧ e.delayInSamples ≤ (e.delayBufferSize : Int)

/-- The channels left by the channel loop, built from `loopT`. -/
def chansT (K : IIRKit α κ σ) (e : DelayEffect α κ σ) :
    List (Channel α κ σ) → List (List α) → List (Channel α κ σ)
  | cs, [] => cs
  | [], _ :: _ => []
  | c :: cs, x :: xs => (loopT K e c e.writePosition x).1 :: chansT K e cs xs

/-- The traces of the channel loop, built from `loopT`. -/
def tracesT (K : IIRKit α κ σ) (e : DelayEffect α κ σ) :
    List (Channel α κ σ) → List (List α) → List (List (SampleTrace α))
  | _, [] => []
  | [], _ :: _ => []
  | c :: cs, x :: xs => (loopT K e c e.writePosition x).2 :: tracesT K e cs xs

/-- The engine state `process` leaves behind, built from `loopT`. -/
def processT (K : IIRKit α κ σ) (e : DelayEffect α κ σ) (buffer : AudioBuffer α) :
    DelayEffect α κ σ :=
  { e with
    channels := chansT K e e.channels buffer.channels
    writePosition :=
      (e.writePosition + (buffer.numSamples : Int)).tmod (e.delayBufferSize : Int) }

/-- Buffer index of the sample written `k` iterations ago, when the write
cursor stands at `u` in a buffer of `C` samples. -/
def agePos (C u k : Nat) : Nat :=
  if k ≤ u then u - k else u + C - k

/-- The write cursor after one more sample, as a natural number. -/
def nextPos (C u : Nat) : Nat :=
  if u + 1 ≥ C then 0 else u + 1

/-- History invariant of one row of the delay buffer: after `t` iterations
with written values `W` and the write cursor at `u`, the sample written `k`
iterations ago (`1 ≤ k ≤ C`) sits at `agePos C u k`, and a position never
written holds 0. -/
def Hist (C t u : Nat) (W data : List α) : Prop :=
  ∀ k, 1 ≤ k → k ≤ C → data.getD (agePos C u k) 0 = if k ≤ t then W.getD (t - k) 0 else 0

/-- Two engine states agree on everything the loop body reads besides the
channel storage and the write cursor. -/
structure SameParams (e e1 : DelayEffect α κ σ) : Prop where
  size : e1.delayBufferSize = e.delayBufferSize
  delay : e1.delayInSamples = e.delayInSamples
  feedback : e1.feedback = e.feedback
  wet : e1.wet = e.wet
  dry : e1.dry = e.dry
  prepared : e1.filtersPrepared = e.filtersPrepared
  nchan : e1.channels.length = e.channels.length

/-- The fields of the engine that `setHighPassCutoff` and `setLowPassCutoff`
leave alone. -/
structure SameCore (e e1 : DelayEffect α κ σ) : Prop where
  size : e1.delayBufferSize = e.delayBufferSize
  delay : e1.delayInSamples = e.delayInSamples
  cursor : e1.writePosition = e.writePosition
  rate : e1.sampleRate = e.sampleRate
  feedback : e1.feedback = e.feedback
  wet : e1.wet = e.wet
  dry : e1.dry = e.dry
  prepared : e1.filtersPrepared = e.filtersPrepared
  rows : e1.channels.map (fun c => c.delayData) = e.channels.map (fun c => c.delayData)

/-- A filter stage is at rest: fed a zero sample it returns zero and keeps its
history (for the JUCE IIR filter, a history of zeros). -/
def AtRest (K : IIRKit α κ σ) (f : Filter κ σ) : Prop :=
  K.processSample f.coefficients f.state 0 = (0, f.state)

/-- A channel holds silence: its delay buffer row is all zero and both its
filter stages are at rest. -/
def Channel.Silent (K : IIRKit α κ σ) (c : Channel α κ σ) : Prop :=
  (∀ i, c.delayData.getD i 0 = 0) ∧ AtRest K c.hp ∧ AtRest K c.lp

/-! ## Sequences of calls on the engine -/

/-- One call of a public member function of `DelayEffect`. -/
inductive Call (α : Type) where
  | prepare (sr : α) (channels : Int) (maxDelayTime : α)
  | setDelayTime (delayTime : α)
  | setFeedback (feedbackAmount : α)
  | setWet (wetAmount : α)
  | setDry (dryAmount : α)
  | setHighPassCutoff (hpHz : α)
  | setLowPassCutoff (lpHz : α)
  | clear
  | process (buffer : AudioBuffer α)

/-- The call is a `prepare`. -/
def Call.isPrepare : Call α → Bool
  | Call.prepare _ _ _ => true
  | _ => false

/-- The engine state after one call (`none` when the call is undefined). -/
def applyCall [FloorRing α] (K : IIRKit α κ σ) (e : DelayEffect α κ σ) :
    Call α → Option (DelayEffect α κ σ)
  | Call.prepare sr channels maxDelayTime => prepare K e sr channels maxDelayTime
  | Call.setDelayTime delayTime => some (setDelayTime e delayTime)
  | Call.setFeedback v => some (setFeedback e v)
  | Call.setWet v => some (setWet e v)
  | Call.setDry v => some (setDry e v)
  | Call.setHighPassCutoff v => some (setHighPassCutoff K e v)
  | Call.setLowPassCutoff v => some (setLowPassCutoff K e v)
  | Call.clear => some (clear e)
  | Call.process buffer =>
    match process K e buffer with
    | none => none
    | some (e1, _) => some e1

/-- The engine state after a sequence of calls, in order. -/
def run [FloorRing α] (K : IIRKit α κ σ) :
    DelayEffect α κ σ → List (Call α) → Option (DelayEffect α κ σ)
  | e, [] => some e
  | e, c :: cs =>
    match applyCall K e c with
    | none => none
    | some e1 => run K e1 cs

/-- The member `CircularBufferAudioProcessor::getTailLengthSeconds`, on the
engine `delay`; `log` is `std::log`. -/
def getTailLengthSeconds (log : α → α) (e : DelayEffect α κ σ) : α :=
  let f := getFeedback e
  let T := getDelayTime e
  if f ≤ 0 ∨ T ≤ 0 then 0
  else
    let k := log (1 / 1000) / log (max (1 / 10000) f)
    T * k

/-- The parameter ranges of the engine configuration, with the two values the
member initialisers give to `wet` and `dry` listed apart. -/
def DelayEffect.RangesOrDefault (e : DelayEffect α κ σ) : Prop :=
  (0 ≤ e.feedback ∧ e.feedback ≤ 199 / 200) ∧ (20 ≤ e.hpCutoff ∧ e.hpCutoff ≤ 10000) ∧
    (25 ≤ e.lpCutoff ∧ e.lpCutoff ≤ 20000) ∧ ((0 ≤ e.wet ∧ e.wet ≤ 1) ∨ e.wet = 50) ∧
    ((0 ≤ e.dry ∧ e.dry ≤ 1) ∨ e.dry = 100)

/-- The block made of the first `s` samples of every channel. -/
def AudioBuffer.takeSamples (s : Nat) (b : AudioBuffer α) : AudioBuffer α :=
  { numSamples := s, channels := b.channels.map (List.take s) }

/-- The block made of the samples from position `s` on, of every channel. -/
def AudioBuffer.dropSamples (s : Nat) (b : AudioBuffer α) : AudioBuffer α :=
  { numSamples := b.numSamples - s, channels := b.channels.map (List.drop s) }

/-- The local write position after `n` iterations of the sample loop. -/
def advancePos (delayBufferSize : Int) : Int → Nat → Int
  | w, 0 => w
  | w, n + 1 => advancePos delayBufferSize (nextWritePos delayBufferSize w) n

end Engine

/-! ## Concrete instances used to evaluate the model -/

section Demo

/-- A filter kit whose stages pass every sample through unchanged. -/
def idKit (α : Type) : IIRKit α Unit Unit where
  makeHighPass := fun _ _ => ()
  makeLowPass := fun _ _ => ()
  resetState := ()
  processSample := fun _ s x => (x, s)

/-- A prepared one-channel engine with four samples of delay storage. -/
def demoEngine : DelayEffect ℚ Unit Unit where
  delayBufferSize := 4
  channels := [{ delayData := [3, 1, 4, 1], hp := ⟨(), ()⟩, lp := ⟨(), ()⟩ }]
  writePosition := 2
  sampleRate := 4
  delayInSamples := 2
  feedback := 1 / 2
  wet := 1
  dry := 0
  hpCutoff := 60
  lpCutoff := 8000
  filtersPrepared := true

/-- Coefficients of a second-order section, normalised by `a0`:
`(b0, b1, b2, a1, a2)`. -/
structure Biquad where
  b0 : ℚ
  b1 : ℚ
  b2 : ℚ
  a1 : ℚ
  a2 : ℚ

/-- A filter kit with the recurrence of JUCE `dsp::IIR::Filter::processSample`
for a second-order section (transposed direct form II):
`y = b0*x + s0`, `s0 = b1*x - a1*y + s1`, `s1 = b2*x - a2*y`.
The coefficient design (`tan`, `sqrt`) is not modelled: `makeHighPass` returns
the first difference `y[n] = (x[n] - x[n-1]) / 2` and `makeLowPass` the moving
average `y[n] = (x[n] + x[n-1]) / 2`, whatever the cutoff. -/
def biquadKit : IIRKit ℚ Biquad (ℚ × ℚ) where
  makeHighPass := fun _ _ => ⟨1 / 2, -1 / 2, 0, 0, 0⟩
  makeLowPass := fun _ _ => ⟨1 / 2, 1 / 2, 0, 0, 0⟩
  resetState := (0, 0)
  processSample := fun c s x =>
    let y := c.b0 * x + s.1
    (y, (c.b1 * x - c.a1 * y + s.2, c.b2 * x - c.a2 * y))

/-- The engine left by `prepare (4.0, 1, 1.0f)` on a default-constructed
engine, with `biquadKit`. -/
def preparedBiquad : DelayEffect ℚ Biquad (ℚ × ℚ) where
  delayBufferSize := 4
  channels := [{ delayData := [0, 0, 0, 0]
                 hp := ⟨⟨1 / 2, -1 / 2, 0, 0, 0⟩, (0, 0)⟩
                 lp := ⟨⟨1 / 2, 1 / 2, 0, 0, 0⟩, (0, 0)⟩ }]
  writePosition := 0
  sampleRate := 4
  delayInSamples := 0
  feedback := 1 / 2
  wet := 50
  dry := 100
  hpCutoff := 60
  lpCutoff := 8000
  filtersPrepared := true

/-- The engine `preparedBiquad` after `setDelayTime (250)` and `setWet (100)`. -/
def armedBiquad : DelayEffect ℚ Biquad (ℚ × ℚ) :=
  { preparedBiquad with delayInSamples := 1, wet := 1 }

/-- The engine `armedBiquad` after processing the block `[1, 0]`: both filter stages hold a
non-zero history. -/
def ringingEngine : DelayEffect ℚ Biquad (ℚ × ℚ) where
  delayBufferSize := 4
  channels := [{ delayData := [1, 1 / 32, 0, 0]
                 hp := ⟨⟨1 / 2, -1 / 2, 0, 0, 0⟩, (-1 / 16, 0)⟩
                 lp := ⟨⟨1 / 2, 1 / 2, 0, 0, 0⟩, (-7 / 32, 0)⟩ }]
  writePosition := 2
  sampleRate := 4
  delayInSamples := 1
  feedback := 1 / 2
  wet := 1
  dry := 100
  hpCutoff := 60
  lpCutoff := 8000
  filtersPrepared := true

end Demo

/-! ## Basic facts -/

section Plain

variable {α κ σ : Type}

theorem DelayEffect.DelayOK.inRange {e : DelayEffect α κ σ} (h : e.DelayOK) : e.DelayInRange :=
  ⟨by have := h.1; omega, by have := h.2; omega⟩

theorem writeAt_eq (xs : List α) (i : Int) (v : α) (h0 : 0 ≤ i) (h1 : i < xs.length) :
    writeAt xs i v = some (xs.set i.toNat v) := by
  have : i.toNat < xs.length := by omega
  simp [writeAt, h0, this]

theorem filterPair_id (K : IIRKit α κ σ) (p : Bool) (hp lp : Filter κ σ)
    (hhp : ∀ s x, (K.processSample hp.coefficients s x).1 = x)
    (hlp : ∀ s x, (K.processSample lp.coefficients s x).1 = x) (x : α) :
    (filterPair K p hp lp x).1 = x ∧
      (filterPair K p hp lp x).2.1.coefficients = hp.coefficients ∧
      (filterPair K p hp lp x).2.2.coefficients = lp.coefficients := by
  unfold filterPair
  cases p
  · simp
  · simp [hhp, hlp]

theorem SameCore.trans {e e1 e2 : DelayEffect α κ σ} (h1 : SameCore e e1) (h2 : SameCore e1 e2) :
    SameCore e e2 :=
  { size := h2.size.trans h1.size, delay := h2.delay.trans h1.delay,
    cursor := h2.cursor.trans h1.cursor, rate := h2.rate.trans h1.rate,
    feedback := h2.feedback.trans h1.feedback, wet := h2.wet.trans h1.wet,
    dry := h2.dry.trans h1.dry, prepared := h2.prepared.trans h1.prepared,
    rows := h2.rows.trans h1.rows }

theorem SameCore.nchan {e e1 : DelayEffect α κ σ} (h : SameCore e e1) :
    e1.channels.length = e.channels.length := by
  have := congrArg List.length h.rows
  simpa using this

theorem SameCore.wf {e e1 : DelayEffect α κ σ} (h : SameCore e e1) (hwf : e.WF) : e1.WF := by
  intro c hc
  have h1 : c.delayData ∈ e1.channels.map (fun c => c.delayData) := List.mem_map_of_mem _ hc
  rw [h.rows, List.mem_map] at h1
  obtain ⟨c0, hc0, hc0e⟩ := h1
  rw [← hc0e, h.size]
  exact hwf c0 hc0

theorem filterPair_rest [Zero α] (K : IIRKit α κ σ) (p : Bool) (hp lp : Filter κ σ)
    (hhp : K.processSample hp.coefficients hp.state 0 = (0, hp.state))
    (hlp : K.processSample lp.coefficients lp.state 0 = (0, lp.state)) :
    filterPair K p hp lp 0 = (0, hp, lp) := by
  unfold filterPair
  cases p
  · simp
  · simp [hhp, hlp]

theorem DelayEffect.eq_of_fields {a b : DelayEffect α κ σ}
    (h1 : a.delayBufferSize = b.delayBufferSize) (h2 : a.channels = b.channels)
    (h3 : a.writePosition = b.writePosition) (h4 : a.sampleRate = b.sampleRate)
    (h5 : a.delayInSamples = b.delayInSamples) (h6 : a.feedback = b.feedback)
    (h7 : a.wet = b.wet) (h8 : a.dry = b.dry) (h9 : a.hpCutoff = b.hpCutoff)
    (h10 : a.lpCutoff = b.lpCutoff) (h11 : a.filtersPrepared = b.filtersPrepared) : a = b := by
  cases a
  cases b
  simp only [DelayEffect.mk.injEq]
  exact ⟨h1, h2, h3, h4, h5, h6, h7, h8, h9, h10, h11⟩

end Plain

section Basic

variable {α κ σ : Type} [LinearOrderedField α]

/-! ### Evaluation of the machine arithmetic of `setDelayTime` -/

theorem roundHalfEven_eq [FloorRing α] (q : α) (n : Int) (h1 : (n : α) - 1 / 2 < q)
    (h2 : q < (n : α) + 1 / 2) : roundHalfEven q = n := by
  unfold roundHalfEven
  by_cases hq : (n : α) ≤ q
  · have hf : Int.floor q = n := by
      rw [Int.floor_eq_iff]
      exact ⟨hq, by linarith⟩
    rw [hf, if_pos (by linarith)]
  · have hq' : q < (n : α) := not_le.mp hq
    have hf : Int.floor q = n - 1 := by
      rw [Int.floor_eq_iff]
      push_cast
      exact ⟨by linarith, by linarith⟩
    rw [hf]
    push_cast
    rw [if_neg (by linarith), if_pos (by linarith)]
    ring

theorem roundBits_eval [FloorRing α] (p : Nat) (emin : Int) (x : α) (k n : Int)
    (hk : emin ≤ k + ((p : Int) - 1))
    (hlo : (2 : α) ^ (k + ((p : Int) - 1)) ≤ |x|)
    (hhi : |x| < (2 : α) ^ (k + ((p : Int) - 1) + 1))
    (hn1 : (n : α) - 1 / 2 < x / (2 : α) ^ k) (hn2 : x / (2 : α) ^ k < (n : α) + 1 / 2) :
    roundBits p emin x = (n : α) * (2 : α) ^ k := by
  have hx : 0 < |x| := lt_of_lt_of_le (zpow_pos (by norm_num) _) hlo
  have hx0 : x ≠ 0 := abs_pos.mp hx
  have hlog : Int.log 2 |x| = k + ((p : Int) - 1) := by
    have h1 : k + ((p : Int) - 1) ≤ Int.log 2 |x| := by
      rw [← Int.zpow_le_iff_le_log (by norm_num) hx]
      simpa using hlo
    have h2 : Int.log 2 |x| < k + ((p : Int) - 1) + 1 := by
      rw [← Int.lt_zpow_iff_log_lt (by norm_num) hx]
      simpa using hhi
    omega
  unfold roundBits
  rw [if_neg hx0, hlog, max_eq_left hk, show k + ((p : Int) - 1) - ((p : Int) - 1) = k by ring,
    roundHalfEven_eq _ n hn1 hn2]

theorem truncToInt_eval [FloorRing α] (x : α) (d : Int) (h0 : 0 ≤ x) (h1 : (d : α) ≤ x)
    (h2 : x < (d : α) + 1) : truncToInt x = d := by
  unfold truncToInt
  rw [if_pos h0, Int.floor_eq_iff]
  exact ⟨h1, h2⟩

/-- Evaluation of `delaySamplesOf` from the two rounded products: `n1 * 2 ^ k1`
is the `float` nearest to `t * 0.001f`, `n2 * 2 ^ k2` the `double` nearest to
its product with `sr`, and `d` the truncation of the latter. -/
theorem delaySamplesOf_eval [FloorRing α] (t sr : α) (k1 n1 k2 n2 d : Int)
    (hk1 : (-126 : Int) ≤ k1 + (((24 : Nat) : Int) - 1))
    (hlo1 : (2 : α) ^ (k1 + (((24 : Nat) : Int) - 1)) ≤ |t * float001|)
    (hhi1 : |t * float001| < (2 : α) ^ (k1 + (((24 : Nat) : Int) - 1) + 1))
    (hn1 : (n1 : α) - 1 / 2 < t * float001 / (2 : α) ^ k1)
    (hn1' : t * float001 / (2 : α) ^ k1 < (n1 : α) + 1 / 2)
    (hfin : |(n1 : α) * (2 : α) ^ k1| < (2 : α) ^ 128)
    (hk2 : (-1022 : Int) ≤ k2 + (((53 : Nat) : Int) - 1))
    (hlo2 : (2 : α) ^ (k2 + (((53 : Nat) : Int) - 1)) ≤ |(n1 : α) * (2 : α) ^ k1 * sr|)
    (hhi2 : |(n1 : α) * (2 : α) ^ k1 * sr| < (2 : α) ^ (k2 + (((53 : Nat) : Int) - 1) + 1))
    (hn2 : (n2 : α) - 1 / 2 < (n1 : α) * (2 : α) ^ k1 * sr / (2 : α) ^ k2)
    (hn2' : (n1 : α) * (2 : α) ^ k1 * sr / (2 : α) ^ k2 < (n2 : α) + 1 / 2)
    (h0 : 0 ≤ (n2 : α) * (2 : α) ^ k2) (hd1 : (d : α) ≤ (n2 : α) * (2 : α) ^ k2)
    (hd2 : (n2 : α) * (2 : α) ^ k2 < (d : α) + 1)
    (hr1 : -2147483648 ≤ d) (hr2 : d ≤ 2147483647) :
    delaySamplesOf t sr = d := by
  unfold delaySamplesOf toDouble toFloat
  rw [roundBits_eval 24 (-126) _ k1 n1 hk1 hlo1 hhi1 hn1 hn1', if_neg (not_le.mpr hfin),
    roundBits_eval 53 (-1022) _ k2 n2 hk2 hlo2 hhi2 hn2 hn2']
  unfold castInt
  rw [truncToInt_eval _ d h0 hd1 hd2, if_pos ⟨hr1, hr2⟩]

/-- 500 ms at 44100 Hz: `500 * 0.001f` rounds to the `float` 0.5, and
`0.5 * 44100 = 22050`. -/
theorem delaySamplesOf_500_44100 [FloorRing α] : delaySamplesOf (500 : α) 44100 = 22050 := by
  apply delaySamplesOf_eval 500 44100 (-24) 8388608 (-38) 6061057848115200 22050 <;>
    norm_num [float001, abs_of_pos]

/-- 10 ms at 44100 Hz: `10 * 0.001f` rounds to the `float` `10737419 * 2 ^ (-30)`,
whose product with 44100 is a little above 441. -/
theorem delaySamplesOf_10_44100 [FloorRing α] : delaySamplesOf (10 : α) 44100 = 441 := by
  apply delaySamplesOf_eval 10 44100 (-30) 10737419 (-44) 7758154594713600 441 <;>
    norm_num [float001, abs_of_pos]

/-- 250 ms at a sample rate of 4 Hz: `250 * 0.001f` rounds to the `float` 0.25. -/
theorem delaySamplesOf_250_4 [FloorRing α] : delaySamplesOf (250 : α) 4 = 1 := by
  apply delaySamplesOf_eval 250 4 (-25) 8388608 (-52) 4503599627370496 1 <;>
    norm_num [float001, abs_of_pos]

/-- 500 ms at a sample rate of 4 Hz: `500 * 0.001f` rounds to the `float` 0.5. -/
theorem delaySamplesOf_500_4 [FloorRing α] : delaySamplesOf (500 : α) 4 = 2 := by
  apply delaySamplesOf_eval 500 4 (-24) 8388608 (-51) 4503599627370496 2 <;>
    norm_num [float001, abs_of_pos]

/-- 1500 ms at a sample rate of 4 Hz: `1500 * 0.001f` rounds to the `float`
`12582913 * 2 ^ (-23)`, a little above 1.5. -/
theorem delaySamplesOf_1500_4 [FloorRing α] : delaySamplesOf (1500 : α) 4 = 6 := by
  apply delaySamplesOf_eval 1500 4 (-23) 12582913 (-50) 6755399977926656 6 <;>
    norm_num [float001, abs_of_pos]

/-- 33 ms at 48000 Hz: `33 * 0.001f` rounds to the `float` `8858370 * 2 ^ (-28)`,
a little below 0.033, and its product with 48000 is a little below 1584. -/
theorem delaySamplesOf_33_48000 [FloorRing α] : delaySamplesOf (33 : α) 48000 = 1583 := by
  apply delaySamplesOf_eval 33 48000 (-28) 8858370 (-42) 6966505635840000 1583 <;>
    norm_num [float001, abs_of_pos]

/-- A request of `10 ^ 10` ms at 44100 Hz: the `float` product is `10 ^ 7`, the
`double` product `4.41 * 10 ^ 11` is out of the range of `int`. -/
theorem delaySamplesOf_huge_44100 [FloorRing α] :
    delaySamplesOf (10000000000 : α) 44100 = -2147483648 := by
  have h1 : roundBits 24 (-126) ((10000000000 : α) * float001)
      = ((10000000 : Int) : α) * (2 : α) ^ (0 : Int) := by
    apply roundBits_eval 24 (-126) _ 0 10000000 <;> norm_num [float001, abs_of_pos]
  have h2 : roundBits 53 (-1022) (((10000000 : Int) : α) * (2 : α) ^ (0 : Int) * 44100)
      = ((7225344000000000 : Int) : α) * (2 : α) ^ (-14 : Int) := by
    apply roundBits_eval 53 (-1022) _ (-14) 7225344000000000 <;> norm_num [abs_of_pos]
  have h3 : truncToInt (((7225344000000000 : Int) : α) * (2 : α) ^ (-14 : Int))
      = 441000000000 := by
    apply truncToInt_eval <;> norm_num
  have hfin : ¬ (2 : α) ^ 128 ≤ |((10000000 : Int) : α) * (2 : α) ^ (0 : Int)| := by
    norm_num [abs_of_pos]
  unfold delaySamplesOf toDouble toFloat
  rw [h1, if_neg hfin, h2]
  unfold castInt
  rw [h3]
  decide

/-- The rounding to the nearest integer moves a value by at most one half. -/
theorem roundHalfEven_err [FloorRing α] (q : α) :
    (q - 1 / 2 ≤ (roundHalfEven q : α)) ∧ ((roundHalfEven q : α) ≤ q + 1 / 2) := by
  have h1 := Int.floor_le q
  have h2 := Int.lt_floor_add_one q
  unfold roundHalfEven
  split_ifs with ha hb hc
  · exact ⟨by linarith, by linarith⟩
  · push_cast
    exact ⟨by linarith, by linarith⟩
  · have ha' := not_lt.mp ha
    exact ⟨by linarith, by linarith⟩
  · have hb' := not_lt.mp hb
    push_cast
    exact ⟨by linarith, by linarith⟩

/-- For a positive value in the normal range the rounding error is at most the
fraction `2 ^ (-p)` of the value. -/
theorem roundBits_err [FloorRing α] (p : Nat) (emin : Int) (x : α) (hx : 0 < x)
    (hn : emin ≤ Int.log 2 x) :
    x - x * (2 : α) ^ (-(p : Int)) ≤ roundBits p emin x ∧
      roundBits p emin x ≤ x + x * (2 : α) ^ (-(p : Int)) := by
  have hx0 : x ≠ 0 := ne_of_gt hx
  have habs : |x| = x := abs_of_pos hx
  unfold roundBits
  rw [if_neg hx0, habs, max_eq_left hn]
  have hk : (0 : α) < (2 : α) ^ (Int.log 2 x - ((p : Int) - 1)) := zpow_pos (by norm_num) _
  obtain ⟨h1, h2⟩ := roundHalfEven_err (x / (2 : α) ^ (Int.log 2 x - ((p : Int) - 1)))
  have hlog : (2 : α) ^ (Int.log 2 x) ≤ x := by
    have := Int.zpow_log_le_self (b := 2) (by norm_num) hx
    simpa using this
  have hsplit : (2 : α) ^ (Int.log 2 x - ((p : Int) - 1)) * (1 / 2)
      = (2 : α) ^ (Int.log 2 x) * (2 : α) ^ (-(p : Int)) := by
    rw [show Int.log 2 x - ((p : Int) - 1) = Int.log 2 x + (-(p : Int)) + 1 by ring,
      zpow_add₀ (by norm_num), zpow_add₀ (by norm_num), zpow_one]
    ring
  have hp : (0 : α) < (2 : α) ^ (-(p : Int)) := zpow_pos (by norm_num) _
  have hhalf : (2 : α) ^ (Int.log 2 x - ((p : Int) - 1)) * (1 / 2) ≤ x * (2 : α) ^ (-(p : Int)) := by
    rw [hsplit]
    exact mul_le_mul_of_nonneg_right hlog (le_of_lt hp)
  have hq : x / (2 : α) ^ (Int.log 2 x - ((p : Int) - 1))
      * (2 : α) ^ (Int.log 2 x - ((p : Int) - 1)) = x := div_mul_cancel₀ _ (ne_of_gt hk)
  constructor
  · have := mul_le_mul_of_nonneg_right h1 (le_of_lt hk)
    rw [sub_mul, hq] at this
    linarith
  · have := mul_le_mul_of_nonneg_right h2 (le_of_lt hk)
    rw [add_mul, hq] at this
    linarith

theorem log_ge_of_le [FloorRing α] (x : α) (j : Int) (hx : 0 < x) (h : (2 : α) ^ j ≤ x) :
    j ≤ Int.log 2 x := by
  rw [← Int.zpow_le_iff_le_log (by norm_num) hx]
  simpa using h

theorem truncToInt_near [FloorRing α] (x y : α) (hx : 0 ≤ x) (hy : 0 ≤ y)
    (h1 : x - 1 < y) (h2 : y < x + 1) :
    truncToInt x - 1 ≤ truncToInt y ∧ truncToInt y ≤ truncToInt x + 1 := by
  unfold truncToInt
  rw [if_pos hx, if_pos hy]
  have a1 := Int.floor_le x
  have a2 := Int.lt_floor_add_one x
  have b1 := Int.floor_le y
  have b2 := Int.lt_floor_add_one y
  constructor
  · have : ((Int.floor x : Int) : α) - 1 < (Int.floor y : α) + 1 := by linarith
    have h : (Int.floor x - 1 : Int) < Int.floor y + 1 := by exact_mod_cast this
    omega
  · have : ((Int.floor y : Int) : α) < (Int.floor x : α) + 1 + 1 := by linarith
    have h : (Int.floor y : Int) < Int.floor x + 1 + 1 := by exact_mod_cast this
    omega

/-- Accuracy of the machine product: for a request of at least 1 ms at a sample
rate of at least 1 Hz whose exact product is below `2 ^ 22` samples, the value
`(int)(v * 0.001f * sr)` is within one sample of `trunc (v / 1000 * sr)`. -/
theorem delaySamplesOf_near [FloorRing α] (v sr : α) (hv : 1 ≤ v) (hsr : 1 ≤ sr)
    (hE : v * (1 / 1000) * sr < 4194304) :
    truncToInt (v * (1 / 1000) * sr) - 1 ≤ delaySamplesOf v sr ∧
      delaySamplesOf v sr ≤ truncToInt (v * (1 / 1000) * sr) + 1 := by
  have hv0 : (0 : α) < v := by linarith
  have hsr0 : (0 : α) < sr := by linarith
  have hE0 : 0 < v * (1 / 1000) * sr := by positivity
  -- the float product
  have hx1 : (0 : α) < v * float001 := by unfold float001; positivity
  have hx1lo : (2 : α) ^ (-10 : Int) ≤ v * float001 := by
    rw [show (2 : α) ^ (-10 : Int) = 1 / 1024 by norm_num]
    unfold float001
    linarith
  have hl1 : (-126 : Int) ≤ Int.log 2 (v * float001) :=
    le_trans (by norm_num) (log_ge_of_le _ (-10) hx1 hx1lo)
  obtain ⟨hf1, hf2⟩ := roundBits_err 24 (-126) (v * float001) hx1 hl1
  rw [show (2 : α) ^ (-((24 : Nat) : Int)) = 1 / 16777216 by norm_num] at hf1 hf2
  unfold delaySamplesOf toDouble toFloat
  obtain ⟨R, hR⟩ : ∃ R, roundBits 24 (-126) (v * float001) = R := ⟨_, rfl⟩
  rw [hR] at hf1 hf2 ⊢
  unfold float001 at hf1 hf2
  have hfL : v * (1 / 1000) * (1 - 1 / 16777216) ≤ R := by linarith
  have hfU : R ≤ v * (1 / 1000) * (1 + 1 / 9000000) := by linarith
  have hR0 : 0 < R := by
    have : 0 < v * (1 / 1000) * (1 - 1 / 16777216) := by positivity
    linarith
  have hRlo : (1 : α) / 2048 ≤ R := by linarith
  -- the double product
  have hmL : v * (1 / 1000) * sr * (1 - 1 / 16777216) ≤ R * sr := by
    have h := mul_le_mul_of_nonneg_right hfL (le_of_lt hsr0)
    linarith
  have hmU : R * sr ≤ v * (1 / 1000) * sr * (1 + 1 / 9000000) := by
    have h := mul_le_mul_of_nonneg_right hfU (le_of_lt hsr0)
    linarith
  have hx2 : (0 : α) < R * sr := mul_pos hR0 hsr0
  have hx2lo : (2 : α) ^ (-11 : Int) ≤ R * sr := by
    rw [show (2 : α) ^ (-11 : Int) = 1 / 2048 by norm_num]
    have : R * 1 ≤ R * sr := mul_le_mul_of_nonneg_left hsr (le_of_lt hR0)
    linarith
  have hl2 : (-1022 : Int) ≤ Int.log 2 (R * sr) :=
    le_trans (by norm_num) (log_ge_of_le _ (-11) hx2 hx2lo)
  obtain ⟨hd1, hd2⟩ := roundBits_err 53 (-1022) (R * sr) hx2 hl2
  rw [show (2 : α) ^ (-((53 : Nat) : Int)) = 1 / 9007199254740992 by norm_num] at hd1 hd2
  obtain ⟨Y, hY⟩ : ∃ Y, roundBits 53 (-1022) (R * sr) = Y := ⟨_, rfl⟩
  rw [hY] at hd1 hd2 ⊢
  obtain ⟨E, hEdef⟩ : ∃ E, v * (1 / 1000) * sr = E := ⟨_, rfl⟩
  rw [hEdef] at hE hE0 hmL hmU ⊢
  obtain ⟨X, hX⟩ : ∃ X, R * sr = X := ⟨_, rfl⟩
  rw [hX] at hd1 hd2 hmL hmU hx2
  have hy2lo : E - 1 < Y := by linarith
  have hy2hi : Y < E + 1 := by linarith
  have hy2pos : 0 ≤ Y := by linarith
  obtain ⟨hn1, hn2⟩ := truncToInt_near E Y (le_of_lt hE0) hy2pos hy2lo hy2hi
  have hEt : truncToInt E ≤ 4194304 := by
    unfold truncToInt
    rw [if_pos (le_of_lt hE0)]
    have h1 := Int.floor_le E
    have h : ((Int.floor E : Int) : α) < ((4194304 : Int) : α) := by
      push_cast; linarith
    exact le_of_lt (Int.cast_lt.mp h)
  have hyt0 : 0 ≤ truncToInt Y := by
    unfold truncToInt
    rw [if_pos hy2pos]
    exact Int.floor_nonneg.mpr hy2pos
  have hRhi : ¬ (2 : α) ^ 128 ≤ |R| := by
    rw [abs_of_pos hR0, not_le]
    have h1 : R * 1 ≤ R * sr := mul_le_mul_of_nonneg_left hsr (le_of_lt hR0)
    have h2 : (4194304 : α) * 2 < 2 ^ 128 := by norm_num
    linarith
  rw [if_neg hRhi]
  unfold castInt
  rw [if_pos ⟨by omega, by omega⟩]
  exact ⟨hn1, hn2⟩

theorem setDelayTime_delay [FloorRing α] (e : DelayEffect α κ σ) (delayTime : α) :
    (setDelayTime e delayTime).delayInSamples
      = jlimit 1 ((e.delayBufferSize : Int) - 1) (delaySamplesOf delayTime e.sampleRate) :=
  rfl

theorem readPos_range (C w d : Int) (hw : 0 ≤ w) (hwC : w < C) (hd1 : d ≤ C) :
    0 ≤ (w - d + C).tmod C ∧ (w - d + C).tmod C < C := by
  rw [Int.tmod_eq_emod (by omega) (by omega)]
  exact ⟨Int.emod_nonneg _ (by omega), Int.emod_lt_of_pos _ (by omega)⟩

theorem readPos_eq (C w d : Int) (hw : 0 ≤ w) (hwC : w < C) (hd1 : 1 ≤ d) (hd2 : d ≤ C - 1) :
    (w - d + C).tmod C = if d ≤ w then w - d else w - d + C := by
  rw [Int.tmod_eq_emod (by omega) (by omega)]
  split_ifs with h
  · rw [Int.add_emod_self, Int.emod_eq_of_lt (by omega) (by omega)]
  · exact Int.emod_eq_of_lt (by omega) (by omega)

theorem readAt_eq (xs : List α) (i : Int) (h0 : 0 ≤ i) (h1 : i < xs.length) :
    readAt xs i = some (xs.getD i.toNat 0) := by
  have : i.toNat < xs.length := by omega
  simp [readAt, h0, List.getD, List.getElem?_eq_getElem this]

theorem sampleStep_eq (K : IIRKit α κ σ) (e : DelayEffect α κ σ) (c : Channel α κ σ)
    (w : Int) (x : α) (hlen : c.delayData.length = e.delayBufferSize)
    (hw : 0 ≤ w) (hwC : w < e.delayBufferSize) (hd : e.DelayInRange) :
    sampleStep K e c w x = some (stepT K e c w x) := by
  have hC : e.delayBufferSize ≠ 0 := by omega
  have hr := readPos_range e.delayBufferSize w e.delayInSamples hw hwC hd.2
  unfold sampleStep stepT
  simp only [hC, if_false, readAt_eq _ _ hr.1 (by rw [hlen]; exact hr.2),
    writeAt_eq _ _ _ hw (by rw [hlen]; exact hwC)]

theorem nextWritePos_range (C w : Int) (hw : 0 ≤ w) (hwC : w < C) :
    0 ≤ nextWritePos C w ∧ nextWritePos C w < C := by
  unfold nextWritePos
  split_ifs <;> omega

theorem stepT_length (K : IIRKit α κ σ) (e : DelayEffect α κ σ) (c : Channel α κ σ)
    (w : Int) (x : α) : (stepT K e c w x).1.delayData.length = c.delayData.length := by
  simp [stepT]

theorem loopT_length (K : IIRKit α κ σ) (e : DelayEffect α κ σ) (xs : List α) :
    ∀ (c : Channel α κ σ) (w : Int),
      (loopT K e c w xs).1.delayData.length = c.delayData.length ∧
      (loopT K e c w xs).2.length = xs.length := by
  induction xs with
  | nil => intro c w; simp [loopT]
  | cons x xs ih =>
    intro c w
    have h := ih (stepT K e c w x).1 (nextWritePos (e.delayBufferSize : Int) w)
    simp only [loopT, List.length_cons]
    exact ⟨by rw [h.1, stepT_length], by rw [h.2]⟩

theorem channelLoop_eq (K : IIRKit α κ σ) (e : DelayEffect α κ σ) (hd : e.DelayInRange)
    (xs : List α) :
    ∀ (c : Channel α κ σ) (w : Int), c.delayData.length = e.delayBufferSize →
      0 ≤ w → w < e.delayBufferSize →
      channelLoop K e c w xs = some (loopT K e c w xs) := by
  induction xs with
  | nil => intro c w _ _ _; simp [channelLoop, loopT]
  | cons x xs ih =>
    intro c w hlen hw hwC
    have hn := nextWritePos_range (e.delayBufferSize : Int) w hw hwC
    have hs := sampleStep_eq K e c w x hlen hw hwC hd
    have hl := ih (stepT K e c w x).1 (nextWritePos (e.delayBufferSize : Int) w)
      (by rw [stepT_length, hlen]) hn.1 hn.2
    simp only [channelLoop, hs, hl, loopT]

theorem processChannels_eq (K : IIRKit α κ σ) (e : DelayEffect α κ σ) (hd : e.DelayInRange)
    (hcur : e.CursorOK) :
    ∀ (cs : List (Channel α κ σ)) (xs : List (List α)),
      (∀ c ∈ cs, c.delayData.length = e.delayBufferSize) → xs.length ≤ cs.length →
      processChannels K e cs xs = some (chansT K e cs xs, tracesT K e cs xs) := by
  intro cs
  induction cs with
  | nil =>
    intro xs _ hlen
    cases xs with
    | nil => simp [processChannels, chansT, tracesT]
    | cons x xs => simp at hlen
  | cons c cs ih =>
    intro xs hwf hlen
    cases xs with
    | nil => simp [processChannels, chansT, tracesT]
    | cons x xs =>
      have h1 := channelLoop_eq K e hd x c e.writePosition (hwf c (by simp)) hcur.1 hcur.2
      have h2 := ih xs (fun c' hc' => hwf c' (by simp [hc'])) (by simpa using hlen)
      simp only [processChannels, h1, h2, chansT, tracesT]

theorem chansT_wf (K : IIRKit α κ σ) (e : DelayEffect α κ σ) :
    ∀ (cs : List (Channel α κ σ)) (xs : List (List α)),
      (∀ c ∈ cs, c.delayData.length = e.delayBufferSize) →
      ∀ c ∈ chansT K e cs xs, c.delayData.length = e.delayBufferSize := by
  intro cs
  induction cs with
  | nil =>
    intro xs _ c hc
    cases xs <;> simp [chansT] at hc
  | cons c0 cs ih =>
    intro xs hwf c hc
    cases xs with
    | nil => exact hwf c (by simpa [chansT] using hc)
    | cons x xs =>
      simp only [chansT, List.mem_cons] at hc
      rcases hc with rfl | hc
      · rw [(loopT_length K e x c0 e.writePosition).1]; exact hwf c0 (by simp)
      · exact ih xs (fun c' hc' => hwf c' (by simp [hc'])) c hc

theorem chansT_length (K : IIRKit α κ σ) (e : DelayEffect α κ σ) :
    ∀ (cs : List (Channel α κ σ)) (xs : List (List α)), xs.length ≤ cs.length →
      (chansT K e cs xs).length = cs.length := by
  intro cs
  induction cs with
  | nil => intro xs h; cases xs <;> simp [chansT]
  | cons c0 cs ih =>
    intro xs h
    cases xs with
    | nil => simp [chansT]
    | cons x xs => simp [chansT, ih xs (by simpa using h)]

theorem processTrace_eq (K : IIRKit α κ σ) (e : DelayEffect α κ σ) (hwf : e.WF)
    (hd : e.DelayInRange) (hcur : e.CursorOK) (b : AudioBuffer α)
    (hb : b.channels.length ≤ e.channels.length) :
    processTrace K e b = some (processT K e b, tracesT K e e.channels b.channels) := by
  have hC : e.delayBufferSize ≠ 0 := by
    have := hcur.1; have := hcur.2; omega
  simp only [processTrace, processChannels_eq K e hd hcur e.channels b.channels hwf hb, hC,
    if_false, processT]

theorem nextWritePos_cast (C u : Nat) : nextWritePos (C : Int) (u : Int) = (nextPos C u : Int) := by
  unfold nextWritePos nextPos
  split_ifs <;> omega

theorem readPos_agePos (C u d : Nat) (hu : u < C) (hd1 : 1 ≤ d) (hd2 : d + 1 ≤ C) :
    ((u : Int) - (d : Int) + (C : Int)).tmod (C : Int) = (agePos C u d : Int) := by
  rw [readPos_eq C u d (by omega) (by omega) (by omega) (by omega)]
  unfold agePos
  split_ifs <;> omega

theorem nextPos_add_mod (C u m : Nat) (hu : u < C) :
    (nextPos C u + m) % C = (u + (m + 1)) % C := by
  unfold nextPos
  split_ifs with h
  · have : u + (m + 1) = C + m := by omega
    rw [this, Nat.add_mod_left, Nat.zero_add]
  · congr 1; omega

theorem hist_step (C t u : Nat) (W data : List α) (v : α) (hu : u < C)
    (hlen : data.length = C) (hW : W.length = t) (h : Hist C t u W data) :
    Hist C (t + 1) (nextPos C u) (W ++ [v]) (data.set u v) := by
  intro k hk1 hkC
  by_cases hk : k = 1
  · subst hk
    have hp : agePos C (nextPos C u) 1 = u := by
      unfold agePos nextPos; split_ifs <;> omega
    rw [hp, if_pos (by omega), List.getD_append_right _ _ _ _ (by omega)]
    simp [List.getD_eq_getElem?_getD, hlen, hu, hW]
  · have hp : agePos C (nextPos C u) k = agePos C u (k - 1) := by
      unfold agePos nextPos; split_ifs <;> omega
    have hne : u ≠ agePos C u (k - 1) := by
      unfold agePos; split_ifs <;> omega
    have h' := h (k - 1) (by omega) (by omega)
    rw [hp, List.getD_eq_getElem?_getD, List.getElem?_set_ne hne, ← List.getD_eq_getElem?_getD, h']
    by_cases hkt : k ≤ t + 1
    · rw [if_pos hkt, if_pos (by omega), List.getD_append _ _ _ _ (by omega)]
      congr 1; omega
    · rw [if_neg hkt, if_neg (by omega)]

theorem loopT_hist (K : IIRKit α κ σ) (e : DelayEffect α κ σ) (d : Nat)
    (hd : e.delayInSamples = (d : Int)) (hd1 : 1 ≤ d) (hd2 : d + 1 ≤ e.delayBufferSize)
    (xs : List α) :
    ∀ (c : Channel α κ σ) (u t : Nat) (W : List α), u < e.delayBufferSize →
      c.delayData.length = e.delayBufferSize → W.length = t →
      Hist e.delayBufferSize t u W c.delayData →
      Hist e.delayBufferSize (t + xs.length) ((u + xs.length) % e.delayBufferSize)
          (W ++ (loopT K e c (u : Int) xs).2.map fun r => r.written)
          (loopT K e c (u : Int) xs).1.delayData ∧
      ∀ j r, (loopT K e c (u : Int) xs).2[j]? = some r →
        r.dly = if d ≤ t + j then
            (W ++ (loopT K e c (u : Int) xs).2.map fun r => r.written).getD (t + j - d) 0
          else 0 := by
  induction xs with
  | nil =>
    intro c u t W hu hlen hW h
    simp [loopT, Nat.mod_eq_of_lt hu, h]
  | cons x xs ih =>
    intro c u t W hu hlen hW h
    have hnu : nextPos e.delayBufferSize u < e.delayBufferSize := by
      unfold nextPos; split_ifs <;> omega
    have hdly : (stepT K e c (u : Int) x).2.dly = if d ≤ t then W.getD (t - d) 0 else 0 := by
      have := h d hd1 (by omega)
      simp only [stepT, hd, readPos_agePos _ u d hu hd1 hd2, Int.toNat_ofNat]
      exact this
    have hset : (stepT K e c (u : Int) x).1.delayData
        = c.delayData.set u (stepT K e c (u : Int) x).2.written := by
      simp [stepT]
    have hs := hist_step e.delayBufferSize t u W c.delayData
      (stepT K e c (u : Int) x).2.written hu hlen hW h
    rw [← hset] at hs
    have := ih (stepT K e c (u : Int) x).1 (nextPos e.delayBufferSize u) (t + 1)
      (W ++ [(stepT K e c (u : Int) x).2.written]) hnu
      (by rw [stepT_length, hlen]) (by simp [hW]) hs
    simp only [loopT, nextWritePos_cast, List.map_cons, List.length_cons]
    rw [nextPos_add_mod _ _ _ hu] at this
    simp only [List.append_assoc, List.singleton_append] at this
    refine ⟨by rw [show t + (xs.length + 1) = t + 1 + xs.length by omega]; exact this.1, ?_⟩
    intro j r hj
    cases j with
    | zero =>
      simp only [List.getElem?_cons_zero, Option.some.injEq] at hj
      subst hj
      rw [hdly]
      by_cases hdt : d ≤ t
      · rw [if_pos hdt, if_pos (by omega), List.getD_append _ _ _ _ (by omega)]
        rfl
      · rw [if_neg hdt, if_neg (by omega)]
    | succ j =>
      simp only [List.getElem?_cons_succ] at hj
      have := this.2 j r hj
      rw [this, show t + 1 + j = t + (j + 1) by omega]

theorem stepT_congr (K : IIRKit α κ σ) (e e1 : DelayEffect α κ σ) (h : SameParams e e1)
    (c : Channel α κ σ) (w : Int) (x : α) : stepT K e1 c w x = stepT K e c w x := by
  simp only [stepT, h.size, h.delay, h.feedback, h.wet, h.dry, h.prepared]

theorem loopT_congr (K : IIRKit α κ σ) (e e1 : DelayEffect α κ σ) (h : SameParams e e1)
    (xs : List α) : ∀ (c : Channel α κ σ) (w : Int), loopT K e1 c w xs = loopT K e c w xs := by
  induction xs with
  | nil => intro c w; rfl
  | cons x xs ih =>
    intro c w
    simp only [loopT, stepT_congr K e e1 h, ih, h.size]

theorem loopT_input (K : IIRKit α κ σ) (e : DelayEffect α κ σ) (xs : List α) :
    ∀ (c : Channel α κ σ) (w : Int), (loopT K e c w xs).2.map (fun r => r.input) = xs := by
  induction xs with
  | nil => intro c w; rfl
  | cons x xs ih =>
    intro c w
    simp only [loopT, List.map_cons, ih]
    simp [stepT]

theorem loopT_inv (K : IIRKit α κ σ) (e : DelayEffect α κ σ) (I : Channel α κ σ → Prop)
    (P : SampleTrace α → Prop)
    (hstep : ∀ c w x, I c → I (stepT K e c w x).1 ∧ P (stepT K e c w x).2) (xs : List α) :
    ∀ (c : Channel α κ σ) (w : Int), I c →
      I (loopT K e c w xs).1 ∧ ∀ r ∈ (loopT K e c w xs).2, P r := by
  induction xs with
  | nil => intro c w hc; simpa [loopT] using hc
  | cons x xs ih =>
    intro c w hc
    have h1 := hstep c w x hc
    have h2 := ih (stepT K e c w x).1 (nextWritePos (e.delayBufferSize : Int) w) h1.1
    simp only [loopT, List.mem_cons]
    refine ⟨h2.1, ?_⟩
    rintro r (rfl | hr)
    · exact h1.2
    · exact h2.2 r hr

theorem chansT_getElem (K : IIRKit α κ σ) (e : DelayEffect α κ σ) :
    ∀ (cs : List (Channel α κ σ)) (xs : List (List α)) (ch : Nat) (c : Channel α κ σ)
      (x : List α), cs[ch]? = some c → xs[ch]? = some x →
      (chansT K e cs xs)[ch]? = some (loopT K e c e.writePosition x).1 ∧
      (tracesT K e cs xs)[ch]? = some (loopT K e c e.writePosition x).2 := by
  intro cs
  induction cs with
  | nil => intro xs ch c x h; simp at h
  | cons c0 cs ih =>
    intro xs ch c x hc hx
    cases xs with
    | nil => simp at hx
    | cons x0 xs =>
      cases ch with
      | zero =>
        simp only [List.getElem?_cons_zero, Option.some.injEq] at hc hx
        subst hc; subst hx
        simp [chansT, tracesT]
      | succ ch =>
        simp only [List.getElem?_cons_succ] at hc hx
        simpa [chansT, tracesT] using ih xs ch c x hc hx

theorem processT_sameParams (K : IIRKit α κ σ) (e0 e : DelayEffect α κ σ)
    (h : SameParams e0 e) (b : AudioBuffer α) (hb : b.channels.length ≤ e.channels.length) :
    SameParams e0 (processT K e b) :=
  { size := h.size, delay := h.delay, feedback := h.feedback, wet := h.wet, dry := h.dry,
    prepared := h.prepared,
    nchan := by
      show (chansT K e e.channels b.channels).length = _
      rw [chansT_length K e _ _ hb, h.nchan] }

theorem processAll_channel (K : IIRKit α κ σ) (e0 : DelayEffect α κ σ) (ch d : Nat)
    (hd : e0.delayInSamples = (d : Int)) (hd1 : 1 ≤ d) (hd2 : d + 1 ≤ e0.delayBufferSize)
    (I : Channel α κ σ → Prop) (P : SampleTrace α → Prop)
    (hstep : ∀ c w x, I c → I (stepT K e0 c w x).1 ∧ P (stepT K e0 c w x).2)
    (bs : List (AudioBuffer α)) :
    ∀ (e : DelayEffect α κ σ) (u t : Nat) (W : List α), SameParams e0 e → e.WF →
      e.writePosition = (u : Int) → u < e0.delayBufferSize →
      (∀ b ∈ bs, b.Rect ∧ b.channels.length = e0.channels.length) →
      (∃ c, e.channels[ch]? = some c ∧ I c ∧ Hist e0.delayBufferSize t u W c.delayData) →
      W.length = t →
      ∃ e1 trs, processAll K e bs = some (e1, trs) ∧
        (∀ r ∈ channelTrace ch trs, P r) ∧
        (channelTrace ch trs).map (fun r => r.input) = channelInput ch bs ∧
        ∀ j r, (channelTrace ch trs)[j]? = some r →
          r.dly = if d ≤ t + j then
              (W ++ (channelTrace ch trs).map fun r => r.written).getD (t + j - d) 0
            else 0 := by
  induction bs with
  | nil =>
    intro e u t W _ _ _ _ _ _ _
    exact ⟨e, [], rfl, by simp [channelTrace], by simp [channelTrace, channelInput],
      by simp [channelTrace]⟩
  | cons b bs ih =>
    intro e u t W hsp hwf hwu hu hbs hch hW
    obtain ⟨c, hc, hIc, hH⟩ := hch
    have hb := hbs b (by simp)
    have hble : b.channels.length ≤ e.channels.length := by rw [hb.2, hsp.nchan]
    have hdr : e.DelayInRange := by
      constructor
      · rw [hsp.delay, hd]; omega
      · rw [hsp.delay, hd, hsp.size]; omega
    have hcur : e.CursorOK := by
      constructor
      · rw [hwu]; omega
      · rw [hwu, hsp.size]; omega
    have hpt := processTrace_eq K e hwf hdr hcur b hble
    have hchlt : ch < b.channels.length := by
      rw [hb.2, ← hsp.nchan]
      exact (List.getElem?_eq_some.mp hc).1
    obtain ⟨x, hx⟩ : ∃ x, b.channels[ch]? = some x :=
      ⟨b.channels[ch], List.getElem?_eq_getElem hchlt⟩
    have hxlen : x.length = b.numSamples :=
      hb.1 x (List.mem_iff_getElem?.mpr ⟨ch, hx⟩)
    have hge := chansT_getElem K e e.channels b.channels ch c x hc hx
    rw [hwu, loopT_congr K e0 e hsp] at hge
    have hclen : c.delayData.length = e0.delayBufferSize := by
      rw [← hsp.size]; exact hwf c (List.mem_iff_getElem?.mpr ⟨ch, hc⟩)
    have hL := loopT_hist K e0 d hd hd1 hd2 x c u t W hu hclen hW hH
    have hI := loopT_inv K e0 I P hstep x c (u : Int) hIc
    have hin := loopT_input K e0 x c (u : Int)
    have hlen := (loopT_length K e0 x c (u : Int)).2
    -- the state after the block
    have hwf1 : (processT K e b).WF := chansT_wf K e e.channels b.channels hwf
    have hsp1 := processT_sameParams K e0 e hsp b hble
    have hw1 : (processT K e b).writePosition
        = (((u + x.length) % e0.delayBufferSize : Nat) : Int) := by
      show (e.writePosition + (b.numSamples : Int)).tmod (e.delayBufferSize : Int) = _
      rw [hwu, hsp.size, hxlen, Int.tmod_eq_emod (by omega) (by omega)]
      push_cast
      rfl
    have hu1 : (u + x.length) % e0.delayBufferSize < e0.delayBufferSize :=
      Nat.mod_lt _ (by omega)
    obtain ⟨e1, trs, hrun, hP, hinp, hdl⟩ := ih (processT K e b)
      ((u + x.length) % e0.delayBufferSize) (t + x.length)
      (W ++ (loopT K e0 c (u : Int) x).2.map fun r => r.written) hsp1 hwf1 hw1 hu1
      (fun b' hb' => hbs b' (by simp [hb']))
      ⟨_, hge.1, hI.1, hL.1⟩ (by simp [hW, hlen])
    have hct : channelTrace ch (tracesT K e e.channels b.channels :: trs)
        = (loopT K e0 c (u : Int) x).2 ++ channelTrace ch trs := by
      simp only [channelTrace, List.getD_eq_getElem?_getD, hge.2, Option.getD_some]
    have hci : channelInput ch (b :: bs) = x ++ channelInput ch bs := by
      simp only [channelInput, List.getD_eq_getElem?_getD, hx, Option.getD_some]
    refine ⟨e1, tracesT K e e.channels b.channels :: trs, ?_, ?_, ?_, ?_⟩
    · simp only [processAll, hpt, hrun]
    · intro r hr
      rw [hct, List.mem_append] at hr
      rcases hr with hr | hr
      · exact hI.2 r hr
      · exact hP r hr
    · rw [hct, hci, List.map_append, hin, hinp]
    · intro j r hj
      rw [hct] at hj ⊢
      rw [List.map_append, ← List.append_assoc]
      by_cases hjl : j < x.length
      · rw [List.getElem?_append_left (by rw [hlen]; exact hjl)] at hj
        rw [hL.2 j r hj]
        by_cases hdt : d ≤ t + j
        · rw [if_pos hdt, if_pos hdt]
          exact (List.getD_append _ _ _ _
            (by rw [List.length_append, List.length_map, hW, hlen]; omega)).symm
        · rw [if_neg hdt, if_neg hdt]
      · rw [List.getElem?_append_right (by rw [hlen]; omega), hlen] at hj
        rw [hdl (j - x.length) r hj,
          show t + x.length + (j - x.length) = t + j by omega]

theorem loopT_out_dry (K : IIRKit α κ σ) (e : DelayEffect α κ σ) (hdry : e.dry = 1)
    (hwet : e.wet = 0) (xs : List α) :
    ∀ (c : Channel α κ σ) (w : Int), (loopT K e c w xs).2.map (fun r => r.out) = xs := by
  induction xs with
  | nil => intro c w; simp [loopT]
  | cons x xs ih =>
    intro c w
    simp only [loopT, List.map_cons, ih]
    simp [stepT, hdry, hwet]

theorem tracesT_out_dry (K : IIRKit α κ σ) (e : DelayEffect α κ σ) (hdry : e.dry = 1)
    (hwet : e.wet = 0) :
    ∀ (cs : List (Channel α κ σ)) (xs : List (List α)), xs.length ≤ cs.length →
      (tracesT K e cs xs).map (fun tr => tr.map fun r => r.out) = xs := by
  intro cs
  induction cs with
  | nil => intro xs h; cases xs with
    | nil => simp [tracesT]
    | cons x xs => simp at h
  | cons c cs ih =>
    intro xs h
    cases xs with
    | nil => simp [tracesT]
    | cons x xs =>
      simp only [tracesT, List.map_cons, loopT_out_dry K e hdry hwet, ih xs (by simpa using h)]

theorem process_eq (K : IIRKit α κ σ) (e : DelayEffect α κ σ) (hwf : e.WF)
    (hd : e.DelayInRange) (hcur : e.CursorOK) (b : AudioBuffer α)
    (hb : b.channels.length ≤ e.channels.length) :
    process K e b = some (processT K e b,
      { numSamples := b.numSamples
        channels := (tracesT K e e.channels b.channels).map fun tr => tr.map fun r => r.out }) := by
  simp only [process, processTrace_eq K e hwf hd hcur b hb]

theorem hist_zero (C u n : Nat) : Hist C 0 u ([] : List α) (List.replicate n 0) := by
  intro k hk1 _
  rw [if_neg (by omega), List.getD_eq_getElem?_getD, List.getElem?_replicate]
  split_ifs <;> rfl

theorem clear_sameParams (e : DelayEffect α κ σ) : SameParams e (clear e) :=
  { size := rfl, delay := rfl, feedback := rfl, wet := rfl, dry := rfl, prepared := rfl,
    nchan := by simp [clear] }

theorem clear_wf (e : DelayEffect α κ σ) (hwf : e.WF) : (clear e).WF := by
  intro c hc
  simp only [clear, List.mem_map] at hc
  obtain ⟨c0, hc0, rfl⟩ := hc
  simpa using hwf c0 hc0

theorem processAll_echo (K : IIRKit α κ σ) (e : DelayEffect α κ σ) (hwf : e.WF)
    (hd : e.DelayOK) (ch : Nat) (c0 : Channel α κ σ) (hc0 : e.channels[ch]? = some c0)
    (hhp : ∀ s x, (K.processSample c0.hp.coefficients s x).1 = x)
    (hlp : ∀ s x, (K.processSample c0.lp.coefficients s x).1 = x)
    (bs : List (AudioBuffer α))
    (hbs : ∀ b ∈ bs, b.Rect ∧ b.channels.length = e.channels.length) :
    ∃ e1 trs, processAll K (clear e) bs = some (e1, trs) ∧
      (channelTrace ch trs).map (fun r => r.input) = channelInput ch bs ∧
      ∀ (i : Nat) (r : SampleTrace α), (channelTrace ch trs)[i]? = some r →
        r.out = e.dry * r.input + e.wet * r.dly ∧
        r.written = r.input + r.dly * e.feedback ∧
        r.dly = if e.delayInSamples.toNat ≤ i then
            ((channelTrace ch trs).map fun r => r.written).getD (i - e.delayInSamples.toNat) 0
          else 0 := by
  obtain ⟨hd1, hd2⟩ := hd
  have hdd : e.delayInSamples = ((e.delayInSamples.toNat : Nat) : Int) := by omega
  have hc : (clear e).channels[ch]? = some
      { c0 with delayData := List.replicate c0.delayData.length 0 } := by
    simp [clear, hc0]
  obtain ⟨e1, trs, hrun, hP, hin, hdl⟩ := processAll_channel K e ch e.delayInSamples.toNat hdd
    (by omega) (by omega)
    (fun c => c.hp.coefficients = c0.hp.coefficients ∧ c.lp.coefficients = c0.lp.coefficients)
    (fun r => r.out = e.dry * r.input + e.wet * r.dly ∧ r.written = r.input + r.dly * e.feedback)
    (fun c w x hI => by
      have hh : ∀ s x, (K.processSample c.hp.coefficients s x).1 = x := by rw [hI.1]; exact hhp
      have hl : ∀ s x, (K.processSample c.lp.coefficients s x).1 = x := by rw [hI.2]; exact hlp
      have h1 := filterPair_id K e.filtersPrepared c.hp c.lp hh hl
      have h2 := fun y z => filterPair_id K e.filtersPrepared
        (filterPair K e.filtersPrepared c.hp c.lp y).2.1
        (filterPair K e.filtersPrepared c.hp c.lp y).2.2
        (by rw [(h1 y).2.1]; exact hh) (by rw [(h1 y).2.2]; exact hl) z
      refine ⟨⟨?_, ?_⟩, ?_, ?_⟩
      · simp only [stepT]; rw [(h2 _ _).2.1, (h1 _).2.1, hI.1]
      · simp only [stepT]; rw [(h2 _ _).2.2, (h1 _).2.2, hI.2]
      · simp only [stepT]; rw [(h1 _).1]
      · simp only [stepT]; rw [(h2 _ _).1, (h1 _).1])
    bs (clear e) 0 0 [] (clear_sameParams e) (clear_wf e hwf) rfl (by omega) hbs
    ⟨_, hc, ⟨rfl, rfl⟩, hist_zero _ _ _⟩ rfl
  refine ⟨e1, trs, hrun, hin, ?_⟩
  intro i r hr
  have h := hP r (List.mem_iff_getElem?.mpr ⟨i, hr⟩)
  have h3 := hdl i r hr
  simp only [Nat.zero_add, List.nil_append] at h3
  exact ⟨h.1, h.2, h3⟩

theorem jlimit_mem {β : Type} [LinearOrder β] (lo hi v : β) (h : lo ≤ hi) :
    lo ≤ jlimit lo hi v ∧ jlimit lo hi v ≤ hi := by
  unfold jlimit
  split_ifs with h1 h2
  · exact ⟨le_refl _, h⟩
  · exact ⟨h, le_refl _⟩
  · exact ⟨not_lt.mp h1, not_lt.mp h2⟩

theorem jlimit_eq_self {β : Type} [LinearOrder β] (lo hi v : β) (h1 : lo ≤ v) (h2 : v ≤ hi) :
    jlimit lo hi v = v := by
  unfold jlimit
  rw [if_neg (not_lt.mpr h1), if_neg (not_lt.mpr h2)]

theorem jlimit_eq_min_max {β : Type} [LinearOrder β] (lo hi v : β) (h : lo ≤ hi) :
    jlimit lo hi v = min hi (max lo v) := by
  unfold jlimit
  split_ifs with h1 h2
  · rw [max_eq_left (le_of_lt h1), min_eq_right h]
  · rw [max_eq_right (le_trans h (le_of_lt h2)), min_eq_left (le_of_lt h2)]
  · rw [max_eq_right (not_lt.mp h1), min_eq_right (not_lt.mp h2)]

theorem setHighPassCutoff_core (K : IIRKit α κ σ) (e : DelayEffect α κ σ) (v : α) :
    SameCore e (setHighPassCutoff K e v) := by
  unfold setHighPassCutoff
  dsimp only
  split_ifs
  · exact ⟨rfl, rfl, rfl, rfl, rfl, rfl, rfl, rfl, rfl⟩
  · exact ⟨rfl, rfl, rfl, rfl, rfl, rfl, rfl, rfl, by simp [Function.comp_def]⟩

theorem setLowPassCutoff_core (K : IIRKit α κ σ) (e : DelayEffect α κ σ) (v : α) :
    SameCore e (setLowPassCutoff K e v) := by
  unfold setLowPassCutoff
  dsimp only
  split_ifs
  · exact ⟨rfl, rfl, rfl, rfl, rfl, rfl, rfl, rfl, rfl⟩
  · exact ⟨rfl, rfl, rfl, rfl, rfl, rfl, rfl, rfl, by simp [Function.comp_def]⟩

theorem readAPVTS_core [FloorRing α] (K : IIRKit α κ σ) (pow : α → α → α)
    (e : DelayEffect α κ σ) (p : RawParams α) :
    SameCore
      (setDry (setWet (setFeedback (setDelayTime e p.delayTime)
        (decayFeedback pow (getDelayTime (setDelayTime e p.delayTime)) p.decayTimeMs)) p.wet)
        p.dry)
      (readAPVTS K pow e p) :=
  (setHighPassCutoff_core K _ _).trans (setLowPassCutoff_core K _ _)

theorem decayFeedback_mem (pow : α → α → α) (T decayMs : α) :
    0 ≤ decayFeedback pow T decayMs ∧ decayFeedback pow T decayMs ≤ 199 / 200 :=
  jlimit_mem _ _ _ (by norm_num)

theorem readAPVTS_feedback [FloorRing α] (K : IIRKit α κ σ) (pow : α → α → α)
    (e : DelayEffect α κ σ) (p : RawParams α) :
    (readAPVTS K pow e p).feedback
      = decayFeedback pow (getDelayTime (setDelayTime e p.delayTime)) p.decayTimeMs := by
  rw [(readAPVTS_core K pow e p).feedback]
  show jlimit 0 (199 / 200) _ = _
  exact jlimit_eq_self _ _ _ (decayFeedback_mem _ _ _).1 (decayFeedback_mem _ _ _).2

theorem readAPVTS_delay [FloorRing α] (K : IIRKit α κ σ) (pow : α → α → α)
    (e : DelayEffect α κ σ) (p : RawParams α) :
    (readAPVTS K pow e p).delayInSamples
      = jlimit 1 ((e.delayBufferSize : Int) - 1)
          (delaySamplesOf p.delayTime e.sampleRate) :=
  (readAPVTS_core K pow e p).delay

theorem prepare_spec [FloorRing α] (K : IIRKit α κ σ) (e e1 : DelayEffect α κ σ) (sr : α)
    (channels : Int) (maxDelayTime : α) (h : prepare K e sr channels maxDelayTime = some e1) :
    e1.WF ∧ (e1.delayBufferSize : Int) = truncToInt (maxDelayTime * sr) ∧
      (e1.channels.length : Int) = channels ∧ e1.sampleRate = sr ∧ e1.writePosition = 0 ∧
      e1.delayInSamples = e.delayInSamples ∧ e1.feedback = e.feedback ∧ e1.wet = e.wet ∧
      e1.dry = e.dry ∧ e1.hpCutoff = e.hpCutoff ∧ e1.lpCutoff = e.lpCutoff ∧
      ∀ c ∈ e1.channels, ∀ x ∈ c.delayData, x = 0 := by
  unfold prepare at h
  simp only at h
  split_ifs at h with hneg
  have hneg' := not_or.mp hneg
  have h1 := Option.some.inj h
  subst h1
  refine ⟨?_, ?_, ?_, rfl, rfl, rfl, rfl, rfl, rfl, rfl, rfl, ?_⟩
  · intro c hc
    simp only [List.mem_replicate] at hc
    rw [hc.2]
    simp
  · show ((truncToInt (maxDelayTime * sr)).toNat : Int) = _
    omega
  · show ((List.replicate channels.toNat _).length : Int) = _
    rw [List.length_replicate]
    omega
  · intro c hc x hx
    simp only [List.mem_replicate] at hc
    rw [hc.2] at hx
    exact (List.mem_replicate.mp hx).2

theorem prepare_eq_some [FloorRing α] (K : IIRKit α κ σ) (e : DelayEffect α κ σ) (sr : α)
    (channels : Int) (maxDelayTime : α) (hc : 0 ≤ channels)
    (hn : 0 ≤ truncToInt (maxDelayTime * sr)) :
    ∃ e1, prepare K e sr channels maxDelayTime = some e1 := by
  unfold prepare
  simp only
  rw [if_neg (by omega)]
  exact ⟨_, rfl⟩

theorem processAll_impulse (K : IIRKit α κ σ) (e : DelayEffect α κ σ) (hwf : e.WF)
    (hd : e.DelayOK) (hwet : e.wet = 1) (hdry : e.dry = 0)
    (c0 : Channel α κ σ) (hc0 : e.channels[0]? = some c0)
    (hhp : ∀ s x, (K.processSample c0.hp.coefficients s x).1 = x)
    (hlp : ∀ s x, (K.processSample c0.lp.coefficients s x).1 = x)
    (bs : List (AudioBuffer α))
    (hbs : ∀ b ∈ bs, b.Rect ∧ b.channels.length = e.channels.length)
    (m : Nat) (himp : channelInput 0 bs = 1 :: List.replicate m 0) :
    ∃ e1 trs, processAll K (clear e) bs = some (e1, trs) ∧
      (channelTrace 0 trs).map (fun r => r.input) = channelInput 0 bs ∧
      ∀ (k : Nat) (r : SampleTrace α),
        (channelTrace 0 trs)[(k + 1) * e.delayInSamples.toNat]? = some r →
        r.out = e.feedback ^ k := by
  obtain ⟨e1, trs, hrun, hin, hall⟩ := processAll_echo K e hwf hd 0 c0 hc0 hhp hlp bs hbs
  refine ⟨e1, trs, hrun, hin, ?_⟩
  have hN : 1 ≤ e.delayInSamples.toNat := by have := hd.1; omega
  have hinput : ∀ (i : Nat) (r : SampleTrace α), (channelTrace 0 trs)[i]? = some r →
      r.input = if i = 0 then 1 else 0 := by
    intro i r hr
    have : ((channelTrace 0 trs).map fun r => r.input)[i]? = some r.input := by
      rw [List.getElem?_map, hr]; rfl
    rw [hin, himp] at this
    cases i with
    | zero => simpa using this.symm
    | succ j =>
      rw [List.getElem?_cons_succ, List.getElem?_replicate] at this
      split_ifs at this
      · simpa using this.symm
  have hout : ∀ (i : Nat) (r : SampleTrace α), (channelTrace 0 trs)[i]? = some r →
      r.out = r.dly := by
    intro i r hr
    rw [(hall i r hr).1, hdry, hwet]; ring
  have hdly : ∀ (i : Nat) (r : SampleTrace α),
      (channelTrace 0 trs)[i + e.delayInSamples.toNat]? = some r →
      ∃ r0, (channelTrace 0 trs)[i]? = some r0 ∧ r.dly = r0.input + r0.dly * e.feedback := by
    intro i r hr
    have hlen : i + e.delayInSamples.toNat < (channelTrace 0 trs).length :=
      (List.getElem?_eq_some.mp hr).1
    have hlt : i < (channelTrace 0 trs).length := by omega
    obtain ⟨r0, hr0⟩ : ∃ r0, (channelTrace 0 trs)[i]? = some r0 :=
      ⟨_, List.getElem?_eq_getElem hlt⟩
    refine ⟨r0, hr0, ?_⟩
    rw [(hall _ r hr).2.2, if_pos (by omega), Nat.add_sub_cancel, List.getD_eq_getElem?_getD,
      List.getElem?_map, hr0]
    exact (hall _ r0 hr0).2.1
  intro k
  induction k with
  | zero =>
    intro r hr
    rw [Nat.zero_add, Nat.one_mul] at hr
    have hr' : (channelTrace 0 trs)[0 + e.delayInSamples.toNat]? = some r := by
      rw [Nat.zero_add]; exact hr
    obtain ⟨r0, hr0, h⟩ := hdly 0 r hr'
    have hz : ¬ e.delayInSamples.toNat ≤ 0 := by omega
    rw [hout _ r hr, h, hinput 0 r0 hr0, (hall 0 r0 hr0).2.2, if_neg hz]
    simp
  | succ k ih =>
    intro r hr
    have hidx : (k + 1 + 1) * e.delayInSamples.toNat
        = (k + 1) * e.delayInSamples.toNat + e.delayInSamples.toNat := Nat.succ_mul _ _
    rw [hidx] at hr
    obtain ⟨r0, hr0, h⟩ := hdly _ r hr
    have hpos : (k + 1) * e.delayInSamples.toNat ≠ 0 :=
      Nat.pos_iff_ne_zero.mp (Nat.mul_pos (Nat.succ_pos k) hN)
    rw [hout _ r hr, h, hinput _ r0 hr0, if_neg hpos, ← hout _ r0 hr0, ih r0 hr0]
    ring

theorem scenario_feedback_value :
    decayFeedback (fun x y : ℝ => x ^ y) (1 / 2) 2000 = (1 / 1000 : ℝ) ^ ((1 / 2 : ℝ) / 2) := by
  have hD : max (1 / 1000 : ℝ) (2000 * (1 / 1000)) = 2 := by norm_num
  have h0 : (0 : ℝ) ≤ (1 / 1000 : ℝ) ^ ((1 / 2 : ℝ) / 2) := Real.rpow_nonneg (by norm_num) _
  have h1 : (1 / 1000 : ℝ) ^ ((1 / 2 : ℝ) / 2) ≤ 199 / 200 := by
    have h3 : (1 / 1000 : ℝ) ^ ((1 / 2 : ℝ) / 2) ≤ (1 / 16 : ℝ) ^ ((1 / 2 : ℝ) / 2) :=
      Real.rpow_le_rpow (by norm_num) (by norm_num) (by norm_num)
    have h4 : (1 / 16 : ℝ) ^ ((1 / 2 : ℝ) / 2) = 1 / 2 := by
      have h5 : (1 / 16 : ℝ) = (1 / 2 : ℝ) ^ (4 : ℝ) := by norm_num
      rw [h5, ← Real.rpow_mul (by norm_num)]
      norm_num
    rw [h4] at h3
    linarith
  unfold decayFeedback
  simp only [hD]
  exact jlimit_eq_self _ _ _ h0 h1

theorem scenario_aux {κ σ : Type} (K : IIRKit ℝ κ σ)
    (hid : ∀ c s x, (K.processSample c s x).1 = x) (e0 : DelayEffect ℝ κ σ)
    (hpHz lpHz : ℝ) (bs : List (AudioBuffer ℝ))
    (hbs : ∀ b ∈ bs, b.Rect ∧ b.channels.length = 1)
    (m : Nat) (himp : channelInput 0 bs = 1 :: List.replicate m 0) :
    ∃ e, prepare K e0 44100 1 2 = some e ∧ e.delayBufferSize = 88200 ∧
      (readAPVTS K (fun x y : ℝ => x ^ y) e ⟨500, 2000, 100, 0, hpHz, lpHz⟩).delayInSamples
        = 22050 ∧
      (readAPVTS K (fun x y : ℝ => x ^ y) e ⟨500, 2000, 100, 0, hpHz, lpHz⟩).feedback
        = (1 / 1000 : ℝ) ^ ((1 / 2 : ℝ) / 2) ∧
      ∃ e1 trs,
        processAll K (clear (readAPVTS K (fun x y : ℝ => x ^ y) e
          ⟨500, 2000, 100, 0, hpHz, lpHz⟩)) bs = some (e1, trs) ∧
        (channelTrace 0 trs).length = m + 1 ∧
        ∀ (k : Nat) (r : SampleTrace ℝ), (channelTrace 0 trs)[(k + 1) * 22050]? = some r →
          r.out = ((1 / 1000 : ℝ) ^ ((1 / 2 : ℝ) / 2)) ^ k := by
  have ht : truncToInt ((2 : ℝ) * 44100) = 88200 := by
    norm_num [truncToInt]
  obtain ⟨e, he⟩ := prepare_eq_some K e0 44100 1 2 (by norm_num) (by rw [ht]; norm_num)
  obtain ⟨hwf, hsize, hnch, hrate, -, -, -, -, -, -, -, -⟩ := prepare_spec K e0 e 44100 1 2 he
  rw [ht] at hsize
  have hsize' : e.delayBufferSize = 88200 := by omega
  have hcore := readAPVTS_core K (fun x y : ℝ => x ^ y) e ⟨500, 2000, 100, 0, hpHz, lpHz⟩
  have hdelay : (readAPVTS K (fun x y : ℝ => x ^ y) e
      ⟨500, 2000, 100, 0, hpHz, lpHz⟩).delayInSamples = 22050 := by
    rw [readAPVTS_delay, hrate, hsize', delaySamplesOf_500_44100]
    decide
  have hsd : (setDelayTime e (500 : ℝ)).delayInSamples = 22050 := by
    rw [← hdelay, readAPVTS_delay]; rfl
  have hT : getDelayTime (setDelayTime e (500 : ℝ)) = 1 / 2 := by
    unfold getDelayTime
    rw [hsd]
    show ((22050 : Int) : ℝ) / e.sampleRate = 1 / 2
    rw [hrate]; norm_num
  have hfb : (readAPVTS K (fun x y : ℝ => x ^ y) e
      ⟨500, 2000, 100, 0, hpHz, lpHz⟩).feedback = (1 / 1000 : ℝ) ^ ((1 / 2 : ℝ) / 2) := by
    rw [readAPVTS_feedback, hT]
    exact scenario_feedback_value
  have hwet : (readAPVTS K (fun x y : ℝ => x ^ y) e
      ⟨500, 2000, 100, 0, hpHz, lpHz⟩).wet = 1 := by
    rw [hcore.wet]; simp [setDry, setWet, jlimit]
  have hdry : (readAPVTS K (fun x y : ℝ => x ^ y) e
      ⟨500, 2000, 100, 0, hpHz, lpHz⟩).dry = 0 := by
    rw [hcore.dry]; simp [setDry, jlimit]
  have hwf2 : (readAPVTS K (fun x y : ℝ => x ^ y) e
      ⟨500, 2000, 100, 0, hpHz, lpHz⟩).WF := hcore.wf hwf
  have hsz2 : (readAPVTS K (fun x y : ℝ => x ^ y) e
      ⟨500, 2000, 100, 0, hpHz, lpHz⟩).delayBufferSize = 88200 := by
    rw [hcore.size]; exact hsize'
  have hn2 : (readAPVTS K (fun x y : ℝ => x ^ y) e
      ⟨500, 2000, 100, 0, hpHz, lpHz⟩).channels.length = 1 := by
    rw [hcore.nchan]
    show e.channels.length = 1
    omega
  have hdok : (readAPVTS K (fun x y : ℝ => x ^ y) e
      ⟨500, 2000, 100, 0, hpHz, lpHz⟩).DelayOK := by
    unfold DelayEffect.DelayOK
    rw [hdelay, hsz2]
    decide
  obtain ⟨c0, hc0⟩ : ∃ c0, (readAPVTS K (fun x y : ℝ => x ^ y) e
      ⟨500, 2000, 100, 0, hpHz, lpHz⟩).channels[0]? = some c0 :=
    ⟨_, List.getElem?_eq_getElem (by rw [hn2]; norm_num)⟩
  obtain ⟨e1, trs, hrun, hin, hk⟩ := processAll_impulse K _ hwf2 hdok hwet hdry c0 hc0
    (hid _) (hid _) bs (fun b hb => ⟨(hbs b hb).1, by rw [hn2]; exact (hbs b hb).2⟩) m himp
  have hlen : (channelTrace 0 trs).length = m + 1 := by
    have := congrArg List.length hin
    rw [List.length_map, himp, List.length_cons, List.length_replicate] at this
    exact this
  refine ⟨e, he, hsize', hdelay, hfb, e1, trs, hrun, hlen, ?_⟩
  intro k r hr
  rw [hdelay] at hk
  rw [← hfb]
  exact hk k r hr

theorem stepT_silence (K : IIRKit α κ σ) (e : DelayEffect α κ σ) (c : Channel α κ σ)
    (w : Int) (hc : c.Silent K) :
    (stepT K e c w 0).1.Silent K ∧ (stepT K e c w 0).2.out = 0 := by
  obtain ⟨hz, hhp, hlp⟩ := hc
  have h1 := filterPair_rest K e.filtersPrepared c.hp c.lp hhp hlp
  simp only [stepT, hz, h1, zero_mul, mul_zero, add_zero]
  refine ⟨⟨?_, hhp, hlp⟩, trivial⟩
  intro i
  rw [List.getD_eq_getElem?_getD, List.getElem?_set]
  split_ifs
  · rfl
  · rfl
  · rw [← List.getD_eq_getElem?_getD]; exact hz i

theorem loopT_silence (K : IIRKit α κ σ) (e : DelayEffect α κ σ) (xs : List α)
    (hxs : ∀ x ∈ xs, x = 0) :
    ∀ (c : Channel α κ σ) (w : Int), c.Silent K →
      (loopT K e c w xs).2.map (fun r => r.out) = xs := by
  induction xs with
  | nil => intro c w _; rfl
  | cons x xs ih =>
    intro c w hc
    have hx : x = 0 := hxs x (by simp)
    subst hx
    have hs := stepT_silence K e c w hc
    simp only [loopT, List.map_cons, hs.2,
      ih (fun y hy => hxs y (by simp [hy])) _ _ hs.1]

theorem tracesT_silence (K : IIRKit α κ σ) (e : DelayEffect α κ σ) :
    ∀ (cs : List (Channel α κ σ)) (xs : List (List α)), xs.length ≤ cs.length →
      (∀ c ∈ cs, c.Silent K) → (∀ x ∈ xs, ∀ y ∈ x, y = 0) →
      (tracesT K e cs xs).map (fun tr => tr.map fun r => r.out) = xs := by
  intro cs
  induction cs with
  | nil =>
    intro xs h _ _
    cases xs with
    | nil => simp [tracesT]
    | cons x xs => simp at h
  | cons c cs ih =>
    intro xs h hcs hxs
    cases xs with
    | nil => simp [tracesT]
    | cons x xs =>
      simp only [tracesT, List.map_cons,
        loopT_silence K e x (hxs x (by simp)) c _ (hcs c (by simp)),
        ih xs (by simpa using h) (fun c' hc' => hcs c' (by simp [hc']))
          (fun x' hx' => hxs x' (by simp [hx']))]

theorem loopT_positions (K : IIRKit α κ σ) (e : DelayEffect α κ σ) (xs : List α) :
    ∀ (c : Channel α κ σ) (w : Int), 0 ≤ w → w < (e.delayBufferSize : Int) →
      ∀ r ∈ (loopT K e c w xs).2,
        r.readPos = (r.localWritePos - e.delayInSamples + (e.delayBufferSize : Int)).tmod
          (e.delayBufferSize : Int) ∧
        0 ≤ r.localWritePos ∧ r.localWritePos < (e.delayBufferSize : Int) := by
  induction xs with
  | nil => intro c w _ _ r hr; simp [loopT] at hr
  | cons x xs ih =>
    intro c w hw hwC r hr
    simp only [loopT, List.mem_cons] at hr
    rcases hr with rfl | hr
    · exact ⟨rfl, hw, hwC⟩
    · have hn := nextWritePos_range (e.delayBufferSize : Int) w hw hwC
      exact ih _ _ hn.1 hn.2 r hr

theorem tracesT_mem (K : IIRKit α κ σ) (e : DelayEffect α κ σ) :
    ∀ (cs : List (Channel α κ σ)) (xs : List (List α)), ∀ tr ∈ tracesT K e cs xs,
      ∃ c x, tr = (loopT K e c e.writePosition x).2 := by
  intro cs
  induction cs with
  | nil => intro xs tr htr; cases xs <;> simp [tracesT] at htr
  | cons c cs ih =>
    intro xs tr htr
    cases xs with
    | nil => simp [tracesT] at htr
    | cons x xs =>
      simp only [tracesT, List.mem_cons] at htr
      rcases htr with rfl | htr
      · exact ⟨c, x, rfl⟩
      · exact ih xs tr htr

theorem setDelayTime_delayOK [FloorRing α] (e : DelayEffect α κ σ) (delayTime : α)
    (hC : 2 ≤ e.delayBufferSize) : (setDelayTime e delayTime).DelayOK := by
  have := jlimit_mem (1 : Int) ((e.delayBufferSize : Int) - 1)
    (delaySamplesOf delayTime e.sampleRate) (by omega)
  exact this

theorem run_append [FloorRing α] (K : IIRKit α κ σ) (l1 l2 : List (Call α)) :
    ∀ (e e2 : DelayEffect α κ σ), run K e (l1 ++ l2) = some e2 →
      ∃ e1, run K e l1 = some e1 ∧ run K e1 l2 = some e2 := by
  induction l1 with
  | nil => intro e e2 h; exact ⟨e, rfl, h⟩
  | cons c l1 ih =>
    intro e e2 h
    simp only [List.cons_append, run] at h ⊢
    cases hc : applyCall K e c with
    | none => rw [hc] at h; simp at h
    | some e1 =>
      rw [hc] at h
      exact ih e1 e2 h

theorem processTrace_fields (K : IIRKit α κ σ) (e e1 : DelayEffect α κ σ) (b : AudioBuffer α)
    (trs : List (List (SampleTrace α))) (h : processTrace K e b = some (e1, trs)) :
    e1.delayBufferSize = e.delayBufferSize ∧ e1.delayInSamples = e.delayInSamples ∧
      e1.sampleRate = e.sampleRate ∧ e1.feedback = e.feedback ∧ e1.wet = e.wet ∧
      e1.dry = e.dry ∧ e1.hpCutoff = e.hpCutoff ∧ e1.lpCutoff = e.lpCutoff ∧
      e1.filtersPrepared = e.filtersPrepared := by
  unfold processTrace at h
  cases hp : processChannels K e e.channels b.channels with
  | none => rw [hp] at h; simp at h
  | some r =>
    obtain ⟨cs, trs'⟩ := r
    rw [hp] at h
    simp only at h
    split_ifs at h
    have h1 := (Prod.mk.inj (Option.some.inj h)).1
    subst h1
    exact ⟨rfl, rfl, rfl, rfl, rfl, rfl, rfl, rfl, rfl⟩

theorem process_fields (K : IIRKit α κ σ) (e e1 : DelayEffect α κ σ) (b b1 : AudioBuffer α)
    (h : process K e b = some (e1, b1)) :
    e1.delayBufferSize = e.delayBufferSize ∧ e1.delayInSamples = e.delayInSamples ∧
      e1.sampleRate = e.sampleRate ∧ e1.feedback = e.feedback ∧ e1.wet = e.wet ∧
      e1.dry = e.dry ∧ e1.hpCutoff = e.hpCutoff ∧ e1.lpCutoff = e.lpCutoff ∧
      e1.filtersPrepared = e.filtersPrepared := by
  unfold process at h
  cases hp : processTrace K e b with
  | none => rw [hp] at h; simp at h
  | some r =>
    obtain ⟨e2, trs⟩ := r
    rw [hp] at h
    have h1 := (Prod.mk.inj (Option.some.inj h)).1
    subst h1
    exact processTrace_fields K e e2 b trs hp

theorem applyCall_size_delay [FloorRing α] (K : IIRKit α κ σ) (e e1 : DelayEffect α κ σ)
    (c : Call α) (hc : c.isPrepare = false) (h : applyCall K e c = some e1) :
    e1.delayBufferSize = e.delayBufferSize ∧
      ((2 ≤ e.delayBufferSize → e.DelayOK) → 2 ≤ e.delayBufferSize → e1.DelayOK) := by
  cases c with
  | prepare sr ch md => simp [Call.isPrepare] at hc
  | setDelayTime t =>
    have h1 := Option.some.inj h
    subst h1
    exact ⟨rfl, fun _ hC => setDelayTime_delayOK e t hC⟩
  | setFeedback v =>
    have h1 := Option.some.inj h
    subst h1
    exact ⟨rfl, fun hd hC => hd hC⟩
  | setWet v =>
    have h1 := Option.some.inj h
    subst h1
    exact ⟨rfl, fun hd hC => hd hC⟩
  | setDry v =>
    have h1 := Option.some.inj h
    subst h1
    exact ⟨rfl, fun hd hC => hd hC⟩
  | setHighPassCutoff v =>
    have h1 := Option.some.inj h
    subst h1
    have hs := setHighPassCutoff_core K e v
    refine ⟨hs.size, fun hd hC => ?_⟩
    unfold DelayEffect.DelayOK
    rw [hs.size, hs.delay]
    exact hd hC
  | setLowPassCutoff v =>
    have h1 := Option.some.inj h
    subst h1
    have hs := setLowPassCutoff_core K e v
    refine ⟨hs.size, fun hd hC => ?_⟩
    unfold DelayEffect.DelayOK
    rw [hs.size, hs.delay]
    exact hd hC
  | clear =>
    have h1 := Option.some.inj h
    subst h1
    exact ⟨rfl, fun hd hC => hd hC⟩
  | process b =>
    simp only [applyCall] at h
    cases hp : process K e b with
    | none => rw [hp] at h; simp at h
    | some r =>
      obtain ⟨e2, b2⟩ := r
      rw [hp] at h
      have h1 := Option.some.inj h
      subst h1
      have hf := process_fields K e e2 b b2 hp
      refine ⟨hf.1, fun hd hC => ?_⟩
      unfold DelayEffect.DelayOK
      rw [hf.1, hf.2.1]
      exact hd hC

theorem run_size_delay [FloorRing α] (K : IIRKit α κ σ) (cs : List (Call α)) :
    ∀ (e e1 : DelayEffect α κ σ), (∀ c ∈ cs, c.isPrepare = false) → run K e cs = some e1 →
      e1.delayBufferSize = e.delayBufferSize ∧
        ((2 ≤ e.delayBufferSize → e.DelayOK) → 2 ≤ e.delayBufferSize → e1.DelayOK) := by
  induction cs with
  | nil =>
    intro e e1 _ h
    have h1 := Option.some.inj h
    subst h1
    exact ⟨rfl, fun hd hC => hd hC⟩
  | cons c cs ih =>
    intro e e1 hcs h
    simp only [run] at h
    cases hc : applyCall K e c with
    | none => rw [hc] at h; simp at h
    | some e2 =>
      rw [hc] at h
      have h1 := applyCall_size_delay K e e2 c (hcs c (by simp)) hc
      have h2 := ih e2 e1 (fun c' hc' => hcs c' (by simp [hc'])) h
      refine ⟨h2.1.trans h1.1, fun hd hC => ?_⟩
      exact h2.2 (fun _ => h1.2 hd hC) (by rw [h1.1]; exact hC)

theorem jlimit_mono {β : Type} [LinearOrder β] (lo hi a b : β) (h : lo ≤ hi) (hab : a ≤ b) :
    jlimit lo hi a ≤ jlimit lo hi b := by
  rw [jlimit_eq_min_max lo hi a h, jlimit_eq_min_max lo hi b h]
  exact min_le_min (le_refl _) (max_le_max (le_refl _) hab)

theorem decayFloor_pos (decayMs : α) : 0 < max (1 / 1000 : α) (decayMs * (1 / 1000)) :=
  lt_of_lt_of_le (by norm_num) (le_max_left _ _)

theorem decayFeedback_nonpos_delay (T decayMs : ℝ) (hT : T ≤ 0) :
    decayFeedback (fun x y : ℝ => x ^ y) T decayMs = 199 / 200 := by
  unfold decayFeedback
  have hexp : T / max (1 / 1000 : ℝ) (decayMs * (1 / 1000)) ≤ 0 :=
    div_nonpos_of_nonpos_of_nonneg hT (le_of_lt (decayFloor_pos decayMs))
  have h1 : (1 : ℝ) ≤ (1 / 1000 : ℝ) ^ (T / max (1 / 1000 : ℝ) (decayMs * (1 / 1000))) :=
    Real.one_le_rpow_of_pos_of_le_one_of_nonpos (by norm_num) (by norm_num) hexp
  unfold jlimit
  simp only
  rw [if_neg (by linarith), if_pos (by linarith)]

theorem decayFeedback_nonpos_decay (pow : α → α → α) (T decayMs : α) (hD : decayMs ≤ 0) :
    decayFeedback pow T decayMs = jlimit 0 (199 / 200) (pow (1 / 1000) (1000 * T)) := by
  unfold decayFeedback
  have hmax : max (1 / 1000 : α) (decayMs * (1 / 1000)) = 1 / 1000 :=
    max_eq_left (by nlinarith)
  simp only [hmax]
  congr 2
  field_simp
  ring

theorem getDelayTime_readAPVTS [FloorRing α] (K : IIRKit α κ σ) (pow : α → α → α)
    (e : DelayEffect α κ σ) (p : RawParams α) :
    getDelayTime (readAPVTS K pow e p) = getDelayTime (setDelayTime e p.delayTime) := by
  unfold getDelayTime
  rw [(readAPVTS_core K pow e p).delay, (readAPVTS_core K pow e p).rate]
  rfl

theorem process_output (K : IIRKit α κ σ) (e e1 : DelayEffect α κ σ) (b : AudioBuffer α)
    (trs : List (List (SampleTrace α))) (h : processTrace K e b = some (e1, trs)) :
    process K e b = some (e1, { numSamples := b.numSamples
                                channels := trs.map fun tr => tr.map fun r => r.out }) := by
  simp only [process, h]

theorem getDelayTime_pos [FloorRing α] (e : DelayEffect α κ σ) (delayTime : α)
    (hsr : 0 < e.sampleRate) (hC : 2 ≤ e.delayBufferSize) :
    0 < getDelayTime (setDelayTime e delayTime) := by
  have hd := (setDelayTime_delayOK e delayTime hC).1
  unfold getDelayTime
  apply div_pos _ hsr
  have h1 : (1 : Int) ≤ (setDelayTime e delayTime).delayInSamples := hd
  have h2 : ((1 : Int) : α) ≤ ((setDelayTime e delayTime).delayInSamples : α) := Int.cast_le.mpr h1
  have h3 : ((1 : Int) : α) = 1 := Int.cast_one
  rw [h3] at h2
  exact lt_of_lt_of_le one_pos h2

theorem setHighPassCutoff_cutoffs (K : IIRKit α κ σ) (e : DelayEffect α κ σ) (v : α) :
    (setHighPassCutoff K e v).hpCutoff = jlimit 20 10000 v ∧
      (setHighPassCutoff K e v).lpCutoff = e.lpCutoff := by
  unfold setHighPassCutoff
  dsimp only
  split_ifs <;> exact ⟨rfl, rfl⟩

theorem setLowPassCutoff_cutoffs (K : IIRKit α κ σ) (e : DelayEffect α κ σ) (v : α) :
    (setLowPassCutoff K e v).lpCutoff = jlimit 25 20000 v ∧
      (setLowPassCutoff K e v).hpCutoff = e.hpCutoff := by
  unfold setLowPassCutoff
  dsimp only
  split_ifs <;> exact ⟨rfl, rfl⟩

theorem initial_ranges : (DelayEffect.initial : DelayEffect α κ σ).RangesOrDefault := by
  refine ⟨⟨?_, ?_⟩, ⟨?_, ?_⟩, ⟨?_, ?_⟩, Or.inr rfl, Or.inr rfl⟩ <;>
    simp only [DelayEffect.initial] <;> norm_num

theorem applyCall_ranges [FloorRing α] (K : IIRKit α κ σ) (e e1 : DelayEffect α κ σ)
    (c : Call α) (hr : e.RangesOrDefault) (h : applyCall K e c = some e1) :
    e1.RangesOrDefault := by
  obtain ⟨hf, hh, hl, hw, hd⟩ := hr
  cases c with
  | prepare sr ch md =>
    obtain ⟨-, -, -, -, -, -, h1, h2, h3, h4, h5, -⟩ := prepare_spec K e e1 sr ch md h
    unfold DelayEffect.RangesOrDefault
    rw [h1, h2, h3, h4, h5]
    exact ⟨hf, hh, hl, hw, hd⟩
  | setDelayTime t =>
    have h1 := Option.some.inj h
    subst h1
    exact ⟨hf, hh, hl, hw, hd⟩
  | setFeedback t =>
    have h1 := Option.some.inj h
    subst h1
    exact ⟨jlimit_mem _ _ _ (by norm_num), hh, hl, hw, hd⟩
  | setWet t =>
    have h1 := Option.some.inj h
    subst h1
    exact ⟨hf, hh, hl, Or.inl (jlimit_mem _ _ _ (by norm_num)), hd⟩
  | setDry t =>
    have h1 := Option.some.inj h
    subst h1
    exact ⟨hf, hh, hl, hw, Or.inl (jlimit_mem _ _ _ (by norm_num))⟩
  | setHighPassCutoff t =>
    have h1 := Option.some.inj h
    subst h1
    have hs := setHighPassCutoff_core K e t
    have hc := setHighPassCutoff_cutoffs K e t
    unfold DelayEffect.RangesOrDefault
    rw [hs.feedback, hs.wet, hs.dry, hc.1, hc.2]
    exact ⟨hf, jlimit_mem _ _ _ (by norm_num), hl, hw, hd⟩
  | setLowPassCutoff t =>
    have h1 := Option.some.inj h
    subst h1
    have hs := setLowPassCutoff_core K e t
    have hc := setLowPassCutoff_cutoffs K e t
    unfold DelayEffect.RangesOrDefault
    rw [hs.feedback, hs.wet, hs.dry, hc.1, hc.2]
    exact ⟨hf, hh, jlimit_mem _ _ _ (by norm_num), hw, hd⟩
  | clear =>
    have h1 := Option.some.inj h
    subst h1
    exact ⟨hf, hh, hl, hw, hd⟩
  | process b =>
    simp only [applyCall] at h
    cases hp : process K e b with
    | none => rw [hp] at h; simp at h
    | some r =>
      obtain ⟨e2, b2⟩ := r
      rw [hp] at h
      have h1 := Option.some.inj h
      subst h1
      obtain ⟨-, -, -, h1, h2, h3, h4, h5, -⟩ := process_fields K e e2 b b2 hp
      unfold DelayEffect.RangesOrDefault
      rw [h1, h2, h3, h4, h5]
      exact ⟨hf, hh, hl, hw, hd⟩

theorem run_ranges [FloorRing α] (K : IIRKit α κ σ) (cs : List (Call α)) :
    ∀ (e e1 : DelayEffect α κ σ), e.RangesOrDefault → run K e cs = some e1 →
      e1.RangesOrDefault := by
  induction cs with
  | nil =>
    intro e e1 hr h
    have h1 := Option.some.inj h
    subst h1
    exact hr
  | cons c cs ih =>
    intro e e1 hr h
    simp only [run] at h
    cases hc : applyCall K e c with
    | none => rw [hc] at h; simp at h
    | some e2 =>
      rw [hc] at h
      exact ih e2 e1 (applyCall_ranges K e e2 c hr hc) h

theorem sampleStep_localWritePos (K : IIRKit α κ σ) (e : DelayEffect α κ σ)
    (c c1 : Channel α κ σ) (w : Int) (x : α) (r : SampleTrace α)
    (h : sampleStep K e c w x = some (c1, r)) : r.localWritePos = w := by
  unfold sampleStep at h
  split_ifs at h
  dsimp only at h
  split at h
  · simp at h
  · split at h
    · simp at h
    · have h1 := (Prod.mk.inj (Option.some.inj h)).2
      rw [← h1]

theorem nextWritePos_emod (C w : Int) (hw : 0 ≤ w) (hwC : w < C) :
    nextWritePos C w = (w + 1) % C := by
  unfold nextWritePos
  split_ifs with h
  · have : w + 1 = C := by omega
    rw [this, Int.emod_self]
  · rw [Int.emod_eq_of_lt (by omega) (by omega)]

theorem channelLoop_positions (K : IIRKit α κ σ) (e : DelayEffect α κ σ) (xs : List α) :
    ∀ (c c1 : Channel α κ σ) (w : Int) (rs : List (SampleTrace α)),
      channelLoop K e c w xs = some (c1, rs) → 0 ≤ w → w < (e.delayBufferSize : Int) →
      rs.length = xs.length ∧
        ∀ (j : Nat) (r : SampleTrace α), rs[j]? = some r →
          r.localWritePos = (w + (j : Int)) % (e.delayBufferSize : Int) := by
  induction xs with
  | nil =>
    intro c c1 w rs h _ _
    simp only [channelLoop] at h
    have h1 := (Prod.mk.inj (Option.some.inj h)).2
    subst h1
    simp
  | cons x xs ih =>
    intro c c1 w rs h hw hwC
    simp only [channelLoop] at h
    cases hs : sampleStep K e c w x with
    | none => rw [hs] at h; simp at h
    | some p =>
      obtain ⟨c2, r0⟩ := p
      rw [hs] at h
      dsimp only at h
      cases hl : channelLoop K e c2 (nextWritePos (e.delayBufferSize : Int) w) xs with
      | none => rw [hl] at h; simp at h
      | some q =>
        obtain ⟨c3, rs0⟩ := q
        rw [hl] at h
        have h1 := (Prod.mk.inj (Option.some.inj h)).2
        subst h1
        have hn := nextWritePos_range (e.delayBufferSize : Int) w hw hwC
        have hi := ih c2 c3 _ rs0 hl hn.1 hn.2
        refine ⟨by simp [hi.1], ?_⟩
        intro j r hj
        cases j with
        | zero =>
          simp only [List.getElem?_cons_zero, Option.some.injEq] at hj
          subst hj
          rw [sampleStep_localWritePos K e c c2 w x r0 hs]
          simp [Int.emod_eq_of_lt hw hwC]
        | succ j =>
          simp only [List.getElem?_cons_succ] at hj
          rw [hi.2 j r hj, nextWritePos_emod _ _ hw hwC, Int.emod_add_emod]
          congr 1
          push_cast
          ring

theorem processChannels_positions (K : IIRKit α κ σ) (e : DelayEffect α κ σ)
    (hcur : e.CursorOK) :
    ∀ (cs cs1 : List (Channel α κ σ)) (xs : List (List α)) (trs : List (List (SampleTrace α))),
      processChannels K e cs xs = some (cs1, trs) →
      trs.length = xs.length ∧
        ∀ (ch : Nat) (tr : List (SampleTrace α)), trs[ch]? = some tr →
          ∃ x, xs[ch]? = some x ∧ tr.length = x.length ∧
            ∀ (j : Nat) (r : SampleTrace α), tr[j]? = some r →
              r.localWritePos = (e.writePosition + (j : Int)) % (e.delayBufferSize : Int) := by
  intro cs
  induction cs with
  | nil =>
    intro cs1 xs trs h
    cases xs with
    | nil =>
      simp only [processChannels] at h
      have h1 := (Prod.mk.inj (Option.some.inj h)).2
      subst h1
      simp
    | cons x xs => simp [processChannels] at h
  | cons c cs ih =>
    intro cs1 xs trs h
    cases xs with
    | nil =>
      simp only [processChannels] at h
      have h1 := (Prod.mk.inj (Option.some.inj h)).2
      subst h1
      simp
    | cons x xs =>
      simp only [processChannels] at h
      cases hl : channelLoop K e c e.writePosition x with
      | none => rw [hl] at h; simp at h
      | some p =>
        obtain ⟨c2, tr0⟩ := p
        rw [hl] at h
        dsimp only at h
        cases hp : processChannels K e cs xs with
        | none => rw [hp] at h; simp at h
        | some q =>
          obtain ⟨cs2, trs0⟩ := q
          rw [hp] at h
          have h1 := (Prod.mk.inj (Option.some.inj h)).2
          subst h1
          have hi := ih cs2 xs trs0 hp
          have h0 := channelLoop_positions K e x c c2 _ tr0 hl hcur.1 hcur.2
          refine ⟨by simp [hi.1], ?_⟩
          intro ch tr htr
          cases ch with
          | zero =>
            simp only [List.getElem?_cons_zero, Option.some.injEq] at htr
            subst htr
            exact ⟨x, by simp, h0.1, h0.2⟩
          | succ ch =>
            simp only [List.getElem?_cons_succ] at htr
            obtain ⟨x1, hx1, hrest⟩ := hi.2 ch tr htr
            exact ⟨x1, by simpa using hx1, hrest⟩

theorem process_some_trace (K : IIRKit α κ σ) (e e1 : DelayEffect α κ σ) (b b1 : AudioBuffer α)
    (h : process K e b = some (e1, b1)) : ∃ trs, processTrace K e b = some (e1, trs) := by
  unfold process at h
  cases hp : processTrace K e b with
  | none => rw [hp] at h; simp at h
  | some r =>
    obtain ⟨e2, trs⟩ := r
    rw [hp] at h
    have h1 := (Prod.mk.inj (Option.some.inj h)).1
    subst h1
    exact ⟨trs, rfl⟩

theorem processTrace_cursor (K : IIRKit α κ σ) (e e1 : DelayEffect α κ σ) (b : AudioBuffer α)
    (trs : List (List (SampleTrace α))) (hcur : e.CursorOK)
    (h : processTrace K e b = some (e1, trs)) :
    e1.writePosition = (e.writePosition + (b.numSamples : Int)) % (e.delayBufferSize : Int) ∧
      e1.CursorOK := by
  have hf := (processTrace_fields K e e1 b trs h).1
  have hw : e1.writePosition
      = (e.writePosition + (b.numSamples : Int)).tmod (e.delayBufferSize : Int) := by
    unfold processTrace at h
    cases hp : processChannels K e e.channels b.channels with
    | none => rw [hp] at h; simp at h
    | some r =>
      obtain ⟨cs, trs'⟩ := r
      rw [hp] at h
      simp only at h
      split_ifs at h
      have h1 := (Prod.mk.inj (Option.some.inj h)).1
      subst h1
      rfl
  have h1 := hcur.1
  have h2 := hcur.2
  rw [Int.tmod_eq_emod (by omega) (by omega)] at hw
  refine ⟨hw, ?_⟩
  unfold DelayEffect.CursorOK
  rw [hw, hf]
  exact ⟨Int.emod_nonneg _ (by omega), Int.emod_lt_of_pos _ (by omega)⟩

theorem advancePos_eq (C : Int) (n : Nat) :
    ∀ (w : Int), 0 ≤ w → w < C → advancePos C w n = (w + (n : Int)) % C := by
  induction n with
  | zero =>
    intro w hw hwC
    simp [advancePos, Int.emod_eq_of_lt hw hwC]
  | succ n ih =>
    intro w hw hwC
    have hn := nextWritePos_range C w hw hwC
    rw [advancePos, ih _ hn.1 hn.2, nextWritePos_emod C w hw hwC, Int.emod_add_emod]
    congr 1
    push_cast
    ring

theorem loopT_append (K : IIRKit α κ σ) (e : DelayEffect α κ σ) (xs ys : List α) :
    ∀ (c : Channel α κ σ) (w : Int),
      loopT K e c w (xs ++ ys)
        = ((loopT K e (loopT K e c w xs).1
              (advancePos (e.delayBufferSize : Int) w xs.length) ys).1,
            (loopT K e c w xs).2 ++
              (loopT K e (loopT K e c w xs).1
                (advancePos (e.delayBufferSize : Int) w xs.length) ys).2) := by
  induction xs with
  | nil => intro c w; simp [loopT, advancePos]
  | cons x xs ih =>
    intro c w
    show loopT K e c w (x :: (xs ++ ys)) = _
    simp only [loopT, ih, List.length_cons, advancePos, List.cons_append]

theorem chansT_split (K : IIRKit α κ σ) (e e2 : DelayEffect α κ σ) (hsp : SameParams e e2)
    (s : Nat)
    (hw2 : e2.writePosition = advancePos (e.delayBufferSize : Int) e.writePosition s) :
    ∀ (cs : List (Channel α κ σ)) (xs : List (List α)), (∀ x ∈ xs, s ≤ x.length) →
      chansT K e2 (chansT K e cs (xs.map (List.take s))) (xs.map (List.drop s))
          = chansT K e cs xs ∧
        List.zipWith (fun a b => a ++ b) (tracesT K e cs (xs.map (List.take s)))
            (tracesT K e2 (chansT K e cs (xs.map (List.take s))) (xs.map (List.drop s)))
          = tracesT K e cs xs := by
  intro cs
  induction cs with
  | nil =>
    intro xs _
    cases xs with
    | nil => simp [chansT, tracesT]
    | cons x xs => simp [chansT, tracesT]
  | cons c cs ih =>
    intro xs hxs
    cases xs with
    | nil => simp [chansT, tracesT]
    | cons x xs =>
      have hx : s ≤ x.length := hxs x (by simp)
      have hlen : (List.take s x).length = s := by
        rw [List.length_take]; exact Nat.min_eq_left hx
      have hi := ih xs (fun y hy => hxs y (by simp [hy]))
      have happ := loopT_append K e (List.take s x) (List.drop s x) c e.writePosition
      rw [List.take_append_drop, hlen, ← hw2] at happ
      simp only [List.map_cons, chansT, tracesT, List.zipWith_cons_cons, hi.1, hi.2,
        loopT_congr K e e2 hsp, happ]
      exact ⟨trivial, trivial⟩

end Basic

/-! ## The claims -/

section Claims

variable {α κ σ : Type} [LinearOrderedField α]

/-- C2. Geometric echo decay: from `clear` of a well-formed engine with delay
length `N` in `[1, capacity - 1]`, `wet = 1`, `dry = 0`, feedback `f` and
channel 0's two filter stages returning their input, process blocks whose
channel-0 input is a unit impulse at sample 0 followed by `m` samples of
silence.  Every call is defined and channel 0 yields `m + 1` output samples,
one per input sample.  For every `k ≥ 1` with `(k+1)*N ≤ m` the output samples
at `(k+1)*N` and at `k*N` exist, the output at sample `(k+1)*N` is `f` times
the output at sample `k*N`, and the output at sample `k*N` is `f ^ (k-1)`. -/
theorem echo_geometric_decay (K : IIRKit α κ σ) (e : DelayEffect α κ σ) (hwf : e.WF)
    (hd : e.DelayOK) (hwet : e.wet = 1) (hdry : e.dry = 0)
    (c0 : Channel α κ σ) (hc0 : e.channels[0]? = some c0)
    (hhp : ∀ s x, (K.processSample c0.hp.coefficients s x).1 = x)
    (hlp : ∀ s x, (K.processSample c0.lp.coefficients s x).1 = x)
    (bs : List (AudioBuffer α))
    (hbs : ∀ b ∈ bs, b.Rect ∧ b.channels.length = e.channels.length)
    (m : Nat) (himp : channelInput 0 bs = 1 :: List.replicate m 0) :
    ∃ e1 trs, processAll K (clear e) bs = some (e1, trs) ∧
      (channelTrace 0 trs).length = m + 1 ∧
      ∀ (k : Nat), 1 ≤ k → (k + 1) * e.delayInSamples.toNat ≤ m →
        ∃ r1 r0, (channelTrace 0 trs)[(k + 1) * e.delayInSamples.toNat]? = some r1 ∧
          (channelTrace 0 trs)[k * e.delayInSamples.toNat]? = some r0 ∧
          r1.out = e.feedback * r0.out ∧ r0.out = e.feedback ^ (k - 1) := by
  obtain ⟨e1, trs, hrun, hin, hall⟩ := processAll_impulse K e hwf hd hwet hdry c0 hc0 hhp hlp
    bs hbs m himp
  have hlen : (channelTrace 0 trs).length = m + 1 := by
    have := congrArg List.length hin
    rw [List.length_map, himp, List.length_cons, List.length_replicate] at this
    exact this
  refine ⟨e1, trs, hrun, hlen, ?_⟩
  intro k hk hkm
  have hle : k * e.delayInSamples.toNat ≤ (k + 1) * e.delayInSamples.toNat :=
    Nat.mul_le_mul_right _ (Nat.le_succ k)
  have hlt1 : (k + 1) * e.delayInSamples.toNat < (channelTrace 0 trs).length := by
    rw [hlen]; omega
  have hlt0 : k * e.delayInSamples.toNat < (channelTrace 0 trs).length := by
    rw [hlen]; omega
  obtain ⟨r1, hr1⟩ : ∃ r1, (channelTrace 0 trs)[(k + 1) * e.delayInSamples.toNat]? = some r1 :=
    ⟨_, List.getElem?_eq_getElem hlt1⟩
  obtain ⟨r0, hr0⟩ : ∃ r0, (channelTrace 0 trs)[k * e.delayInSamples.toNat]? = some r0 :=
    ⟨_, List.getElem?_eq_getElem hlt0⟩
  obtain ⟨j, rfl⟩ : ∃ j, k = j + 1 := ⟨k - 1, by omega⟩
  have h1 := hall (j + 1) r1 hr1
  have h0 := hall j r0 hr0
  refine ⟨r1, r0, hr1, hr0, ?_, ?_⟩
  · rw [h1, h0, pow_succ]; ring
  · rw [h0, Nat.add_sub_cancel]

theorem echo_geometric_decay_witness :
    ∃ e1 trs, processAll (idKit ℚ) (clear demoEngine) [⟨2, [[1, 0]]⟩, ⟨5, [[0, 0, 0, 0, 0]]⟩]
        = some (e1, trs) ∧
      (channelTrace 0 trs).length = 6 + 1 ∧
      ∀ (k : Nat), 1 ≤ k → (k + 1) * demoEngine.delayInSamples.toNat ≤ 6 →
        ∃ r1 r0, (channelTrace 0 trs)[(k + 1) * demoEngine.delayInSamples.toNat]? = some r1 ∧
          (channelTrace 0 trs)[k * demoEngine.delayInSamples.toNat]? = some r0 ∧
          r1.out = demoEngine.feedback * r0.out ∧ r0.out = demoEngine.feedback ^ (k - 1) :=
  echo_geometric_decay (idKit ℚ) demoEngine (by simp [DelayEffect.WF, demoEngine])
    (by simp [DelayEffect.DelayOK, demoEngine]) rfl rfl
    { delayData := [3, 1, 4, 1], hp := ⟨(), ()⟩, lp := ⟨(), ()⟩ } rfl
    (fun _ _ => rfl) (fun _ _ => rfl) [⟨2, [[1, 0]]⟩, ⟨5, [[0, 0, 0, 0, 0]]⟩]
    (by simp [AudioBuffer.Rect, demoEngine]) 6 rfl

/-- C3 (as the code behaves). Concrete echo scenario over the reals, with
`std::pow` the real power: `prepare (44100, 1, 2.0)` gives capacity 88200, and
`readAPVTS` with delay time 500 ms, decay time 2000 ms, wet 100 %, dry 0 %
gives `delayInSamples = 22050` and feedback `f = 0.001 ^ (0.5 / 2)`.  With
filter stages that return their input, processing a unit impulse at sample 0
followed by `m` samples of silence from the cleared buffer is defined and
yields `m + 1` output samples; when the input reaches that far, the output
sample 22050 exists and is `1`, the output sample 44100 exists and is `f`, and
the output sample 66150 exists and is `f ^ 2`. -/
theorem echo_scenario {κ σ : Type} (K : IIRKit ℝ κ σ)
    (hid : ∀ c s x, (K.processSample c s x).1 = x) (e0 : DelayEffect ℝ κ σ)
    (hpHz lpHz : ℝ) (bs : List (AudioBuffer ℝ))
    (hbs : ∀ b ∈ bs, b.Rect ∧ b.channels.length = 1)
    (m : Nat) (himp : channelInput 0 bs = 1 :: List.replicate m 0) :
    ∃ e, prepare K e0 44100 1 2 = some e ∧ e.delayBufferSize = 88200 ∧
      (readAPVTS K (fun x y : ℝ => x ^ y) e ⟨500, 2000, 100, 0, hpHz, lpHz⟩).delayInSamples
        = 22050 ∧
      (readAPVTS K (fun x y : ℝ => x ^ y) e ⟨500, 2000, 100, 0, hpHz, lpHz⟩).feedback
        = (1 / 1000 : ℝ) ^ ((1 / 2 : ℝ) / 2) ∧
      ∃ e1 trs,
        processAll K (clear (readAPVTS K (fun x y : ℝ => x ^ y) e
          ⟨500, 2000, 100, 0, hpHz, lpHz⟩)) bs = some (e1, trs) ∧
        (channelTrace 0 trs).length = m + 1 ∧
        (22050 ≤ m → ∃ r, (channelTrace 0 trs)[22050]? = some r ∧ r.out = 1) ∧
        (44100 ≤ m → ∃ r, (channelTrace 0 trs)[44100]? = some r ∧
          r.out = (1 / 1000 : ℝ) ^ ((1 / 2 : ℝ) / 2)) ∧
        (66150 ≤ m → ∃ r, (channelTrace 0 trs)[66150]? = some r ∧
          r.out = ((1 / 1000 : ℝ) ^ ((1 / 2 : ℝ) / 2)) ^ 2) := by
  obtain ⟨e, he, hsz, hdl, hfb, e1, trs, hrun, hlen, hk⟩ :=
    scenario_aux K hid e0 hpHz lpHz bs hbs m himp
  have hex : ∀ (i : Nat), i ≤ m → ∃ r, (channelTrace 0 trs)[i]? = some r := by
    intro i hi
    have hlt : i < (channelTrace 0 trs).length := by rw [hlen]; omega
    exact ⟨_, List.getElem?_eq_getElem hlt⟩
  refine ⟨e, he, hsz, hdl, hfb, e1, trs, hrun, hlen, ?_, ?_, ?_⟩
  · intro hm
    obtain ⟨r, hr⟩ := hex 22050 hm
    exact ⟨r, hr, by simpa using hk 0 r hr⟩
  · intro hm
    obtain ⟨r, hr⟩ := hex 44100 hm
    exact ⟨r, hr, by simpa using hk 1 r hr⟩
  · intro hm
    obtain ⟨r, hr⟩ := hex 66150 hm
    exact ⟨r, hr, hk 2 r hr⟩

theorem echo_scenario_witness :
    ∃ e, prepare (idKit ℝ) DelayEffect.initial 44100 1 2 = some e ∧ e.delayBufferSize = 88200 ∧
      (readAPVTS (idKit ℝ) (fun x y : ℝ => x ^ y) e ⟨500, 2000, 100, 0, 20, 20000⟩).delayInSamples
        = 22050 ∧
      (readAPVTS (idKit ℝ) (fun x y : ℝ => x ^ y) e ⟨500, 2000, 100, 0, 20, 20000⟩).feedback
        = (1 / 1000 : ℝ) ^ ((1 / 2 : ℝ) / 2) ∧
      ∃ e1 trs,
        processAll (idKit ℝ) (clear (readAPVTS (idKit ℝ) (fun x y : ℝ => x ^ y) e
          ⟨500, 2000, 100, 0, 20, 20000⟩)) [⟨66151, [1 :: List.replicate 66150 0]⟩]
            = some (e1, trs) ∧
        (channelTrace 0 trs).length = 66150 + 1 ∧
        (∃ r, (channelTrace 0 trs)[22050]? = some r ∧ r.out = 1) ∧
        (∃ r, (channelTrace 0 trs)[44100]? = some r ∧
          r.out = (1 / 1000 : ℝ) ^ ((1 / 2 : ℝ) / 2)) ∧
        (∃ r, (channelTrace 0 trs)[66150]? = some r ∧
          r.out = ((1 / 1000 : ℝ) ^ ((1 / 2 : ℝ) / 2)) ^ 2) := by
  obtain ⟨e, he, hsz, hdl, hfb, e1, trs, hrun, hlen, h1, h2, h3⟩ :=
    echo_scenario (idKit ℝ) (fun _ _ _ => rfl) DelayEffect.initial 20 20000
      [⟨66151, [1 :: List.replicate 66150 0]⟩]
      (by
        intro b hb
        rw [List.mem_singleton] at hb
        subst hb
        refine ⟨?_, rfl⟩
        intro c hc
        rw [List.mem_singleton] at hc
        subst hc
        rw [List.length_cons, List.length_replicate])
      66150
      (by rw [channelInput, channelInput, List.append_nil]; rfl)
  exact ⟨e, he, hsz, hdl, hfb, e1, trs, hrun, hlen, h1 (by norm_num), h2 (by norm_num),
    h3 (le_refl _)⟩

/-- C3, the claim as stated fails: in the scenario (identity filter stages, one
block of 44101 samples holding a unit impulse) the output at sample 22050 is
`1`, which is not the stored feedback `f`. -/
theorem echo_scenario_first_echo_unscaled :
    ∃ e e1 trs r, prepare (idKit ℝ) DelayEffect.initial 44100 1 2 = some e ∧
      processAll (idKit ℝ) (clear (readAPVTS (idKit ℝ) (fun x y : ℝ => x ^ y) e
          ⟨500, 2000, 100, 0, 20, 20000⟩)) [⟨44101, [1 :: List.replicate 44100 0]⟩]
            = some (e1, trs) ∧
      (channelTrace 0 trs)[22050]? = some r ∧ r.out = 1 ∧
      r.out ≠ (readAPVTS (idKit ℝ) (fun x y : ℝ => x ^ y) e
          ⟨500, 2000, 100, 0, 20, 20000⟩).feedback := by
  obtain ⟨e, he, -, -, -, e1, trs, hrun, hlen, hk⟩ :=
    scenario_aux (idKit ℝ) (fun _ _ _ => rfl) DelayEffect.initial 20 20000
      [⟨44101, [1 :: List.replicate 44100 0]⟩]
      (by
        intro b hb
        rw [List.mem_singleton] at hb
        subst hb
        refine ⟨?_, rfl⟩
        intro c hc
        rw [List.mem_singleton] at hc
        subst hc
        rw [List.length_cons, List.length_replicate])
      44100
      (by rw [channelInput, channelInput, List.append_nil]; rfl)
  have hlt : 22050 < (channelTrace 0 trs).length := by rw [hlen]; norm_num
  have hone : ((channelTrace 0 trs)[22050]).out = 1 := by
    simpa using hk 0 _ (List.getElem?_eq_getElem hlt)
  refine ⟨e, e1, trs, (channelTrace 0 trs)[22050], he, hrun, List.getElem?_eq_getElem hlt,
    hone, ?_⟩
  rw [hone, readAPVTS_feedback]
  have := (decayFeedback_mem (fun x y : ℝ => x ^ y)
    (getDelayTime (setDelayTime e (500 : ℝ))) 2000).2
  intro h
  rw [← h] at this
  norm_num at this

/-- C4. Dry pass-through identity: for every well-formed engine state with a
write cursor inside the buffer and a delay length in `[1, capacity - 1]` (any
buffer contents, any filter history), after `setWet (0)`, `setDry (100)` and
`setFeedback (0)` the call `process` is defined on every block with at most the
engine's channel count and returns the block unchanged: every output sample
equals its input sample. -/
theorem process_dry_identity (K : IIRKit α κ σ) (e : DelayEffect α κ σ) (hwf : e.WF)
    (hd : e.DelayOK) (hcur : e.CursorOK) (b : AudioBuffer α)
    (hb : b.channels.length ≤ e.channels.length) :
    ∃ e1, process K (setFeedback (setDry (setWet e 0) 100) 0) b = some (e1, b) := by
  have hdry : (setFeedback (setDry (setWet e 0) 100) 0).dry = 1 := by
    simp [setFeedback, setDry, setWet, jlimit]
  have hwet : (setFeedback (setDry (setWet e 0) 100) 0).wet = 0 := by
    simp [setFeedback, setDry, setWet, jlimit]
  have hwf1 : (setFeedback (setDry (setWet e 0) 100) 0).WF := hwf
  have hd1 : (setFeedback (setDry (setWet e 0) 100) 0).DelayInRange := hd.inRange
  have hcur1 : (setFeedback (setDry (setWet e 0) 100) 0).CursorOK := hcur
  have hb1 : b.channels.length ≤ (setFeedback (setDry (setWet e 0) 100) 0).channels.length := hb
  refine ⟨processT K (setFeedback (setDry (setWet e 0) 100) 0) b, ?_⟩
  rw [process_eq K _ hwf1 hd1 hcur1 b hb1, tracesT_out_dry K _ hdry hwet _ _ hb1]

theorem process_dry_identity_witness :
    ∃ e1, process (idKit ℚ) (setFeedback (setDry (setWet demoEngine 0) 100) 0)
        ⟨3, [[5, 6, 7]]⟩ = some (e1, ⟨3, [[5, 6, 7]]⟩) :=
  process_dry_identity (idKit ℚ) demoEngine (by simp [DelayEffect.WF, demoEngine])
    (by simp [DelayEffect.DelayOK, demoEngine]) (by simp [DelayEffect.CursorOK, demoEngine])
    ⟨3, [[5, 6, 7]]⟩ (by simp [demoEngine])

/-- C5 (as the code behaves). Silence after clear: for every well-formed engine
state with capacity at least 1, a delay length in `[0, capacity]`, any `wet`,
`dry` and `feedback`, and every filter stage at rest (`clear` does not reset
the filters, so this is a condition on the state), `clear ()` followed by
`process` on an all-zero block is defined and yields the all-zero block on every
channel. -/
theorem silence_after_clear (K : IIRKit α κ σ) (e : DelayEffect α κ σ) (hwf : e.WF)
    (hC : 1 ≤ e.delayBufferSize) (hd : e.DelayInRange)
    (hrest : ∀ c ∈ e.channels, AtRest K c.hp ∧ AtRest K c.lp) (b : AudioBuffer α)
    (hb : b.channels.length ≤ e.channels.length) (hz : ∀ c ∈ b.channels, ∀ x ∈ c, x = 0) :
    ∃ e1, process K (clear e) b = some (e1, b) := by
  have hcur : (clear e).CursorOK :=
    ⟨le_refl _, by show (0 : Int) < (e.delayBufferSize : Int); omega⟩
  have hb1 : b.channels.length ≤ (clear e).channels.length := by
    rw [(clear_sameParams e).nchan]; exact hb
  have hsil : ∀ c ∈ (clear e).channels, c.Silent K := by
    intro c hc
    simp only [clear, List.mem_map] at hc
    obtain ⟨c0, hc0, rfl⟩ := hc
    refine ⟨?_, (hrest c0 hc0).1, (hrest c0 hc0).2⟩
    intro i
    rw [List.getD_eq_getElem?_getD, List.getElem?_replicate]
    split_ifs <;> rfl
  refine ⟨processT K (clear e) b, ?_⟩
  rw [process_eq K _ (clear_wf e hwf) hd hcur b hb1, tracesT_silence K _ _ _ hb1 hsil hz]

theorem silence_after_clear_witness :
    ∃ e1, process biquadKit (clear preparedBiquad) ⟨2, [[0, 0]]⟩ = some (e1, ⟨2, [[0, 0]]⟩) :=
  silence_after_clear biquadKit preparedBiquad (by simp [DelayEffect.WF, preparedBiquad])
    (by simp [preparedBiquad]) (by simp [DelayEffect.DelayInRange, preparedBiquad])
    (by simp [AtRest, preparedBiquad, biquadKit]) ⟨2, [[0, 0]]⟩ (by simp [preparedBiquad])
    (by simp)

/-- C5, the claim as stated fails: `prepare`, `setDelayTime (250)`, `setWet (100)`
and `process` of the block `[1, 0]` lead to `ringingEngine`, whose filter stages
hold a non-zero history; `clear ()` followed by `process` of the silent block
`[0]` then outputs `-1/4`, not silence. -/
theorem silence_after_clear_rings :
    prepare biquadKit DelayEffect.initial 4 1 1 = some preparedBiquad ∧
    setWet (setDelayTime preparedBiquad 250) 100 = armedBiquad ∧
    process biquadKit armedBiquad ⟨2, [[1, 0]]⟩ = some (ringingEngine, ⟨2, [[100, 1 / 4]]⟩) ∧
    ∃ e2, process biquadKit (clear ringingEngine) ⟨1, [[0]]⟩ = some (e2, ⟨1, [[-1 / 4]]⟩) := by
  refine ⟨?_, ?_, ?_, ?_⟩
  · have ht : truncToInt (4 : ℚ) = 4 := by norm_num [truncToInt]
    simp [prepare, ht, preparedBiquad, DelayEffect.initial, biquadKit, List.replicate]
  · unfold setWet setDelayTime
    rw [show preparedBiquad.sampleRate = 4 from rfl, delaySamplesOf_250_4]
    simp [preparedBiquad, armedBiquad, jlimit]
  · simp [process, processTrace, processChannels, channelLoop, sampleStep, readAt, writeAt,
      filterPair, nextWritePos, biquadKit, preparedBiquad, armedBiquad, ringingEngine, Int.tmod]
    norm_num
  · simp [process, processTrace, processChannels, channelLoop, sampleStep, readAt, writeAt,
      filterPair, nextWritePos, clear, biquadKit, ringingEngine, Int.tmod]
    norm_num

/-- C6. Buffer indices stay in bounds: take a well-formed engine with capacity
`C ≥ 2` and write cursor `0 ≤ w < C`, and set the delay length with
`setDelayTime` (any requested value).  `setDelayTime` leaves the capacity
unchanged, and `process` on a block of any length (with at most the engine's
channel count) is defined, keeps the capacity and the row lengths, and in every
loop iteration the read position equals
`(localWritePos - delayInSamples + C) mod C` (the C++ `%` and the mathematical
modulo agree there) with `0 ≤ readPos < C` and `0 ≤ localWritePos < C`. -/
theorem indices_in_bounds [FloorRing α] (K : IIRKit α κ σ) (e : DelayEffect α κ σ)
    (hwf : e.WF) (hC : 2 ≤ e.delayBufferSize) (hcur : e.CursorOK) (delayTime : α)
    (b : AudioBuffer α) (hb : b.channels.length ≤ e.channels.length) :
    (setDelayTime e delayTime).delayBufferSize = e.delayBufferSize ∧
    ∃ e1 trs, processTrace K (setDelayTime e delayTime) b = some (e1, trs) ∧
      e1.delayBufferSize = e.delayBufferSize ∧ e1.WF ∧
      ∀ tr ∈ trs, ∀ r ∈ tr,
        r.readPos = (r.localWritePos - (setDelayTime e delayTime).delayInSamples
          + (e.delayBufferSize : Int)) % (e.delayBufferSize : Int) ∧
        r.readPos = (r.localWritePos - (setDelayTime e delayTime).delayInSamples
          + (e.delayBufferSize : Int)).tmod (e.delayBufferSize : Int) ∧
        0 ≤ r.readPos ∧ r.readPos < (e.delayBufferSize : Int) ∧
        0 ≤ r.localWritePos ∧ r.localWritePos < (e.delayBufferSize : Int) := by
  have hdok := setDelayTime_delayOK e delayTime hC
  have hwf1 : (setDelayTime e delayTime).WF := hwf
  have hcur1 : (setDelayTime e delayTime).CursorOK := hcur
  have hb1 : b.channels.length ≤ (setDelayTime e delayTime).channels.length := hb
  refine ⟨rfl, _, _, processTrace_eq K _ hwf1 hdok.inRange hcur1 b hb1, rfl,
    chansT_wf K _ _ _ hwf1, ?_⟩
  intro tr htr r hr
  obtain ⟨c, x, rfl⟩ := tracesT_mem K _ _ _ tr htr
  obtain ⟨h1, h2, h3⟩ := loopT_positions K (setDelayTime e delayTime) x c _ hcur.1 hcur.2 r hr
  have h2' : 0 ≤ r.localWritePos := h2
  have h3' : r.localWritePos < (e.delayBufferSize : Int) := h3
  have h1' : r.readPos = (r.localWritePos - (setDelayTime e delayTime).delayInSamples
      + (e.delayBufferSize : Int)).tmod (e.delayBufferSize : Int) := h1
  have hd2 : (setDelayTime e delayTime).delayInSamples ≤ (e.delayBufferSize : Int) - 1 :=
    hdok.2
  have hrange := readPos_range (e.delayBufferSize : Int) r.localWritePos
    (setDelayTime e delayTime).delayInSamples h2' h3' (by omega)
  have hmod : (r.localWritePos - (setDelayTime e delayTime).delayInSamples
      + (e.delayBufferSize : Int)).tmod (e.delayBufferSize : Int)
      = (r.localWritePos - (setDelayTime e delayTime).delayInSamples
      + (e.delayBufferSize : Int)) % (e.delayBufferSize : Int) :=
    Int.tmod_eq_emod (by omega) (by omega)
  refine ⟨by rw [h1', hmod], h1', ?_, ?_, h2', h3'⟩
  · rw [h1']; exact hrange.1
  · rw [h1']; exact hrange.2

theorem indices_in_bounds_witness :
    (setDelayTime demoEngine 9999).delayBufferSize = demoEngine.delayBufferSize ∧
    ∃ e1 trs, processTrace (idKit ℚ) (setDelayTime demoEngine 9999) ⟨3, [[5, 6, 7]]⟩
        = some (e1, trs) ∧
      e1.delayBufferSize = demoEngine.delayBufferSize ∧ e1.WF ∧
      ∀ tr ∈ trs, ∀ r ∈ tr,
        r.readPos = (r.localWritePos - (setDelayTime demoEngine 9999).delayInSamples
          + (demoEngine.delayBufferSize : Int)) % (demoEngine.delayBufferSize : Int) ∧
        r.readPos = (r.localWritePos - (setDelayTime demoEngine 9999).delayInSamples
          + (demoEngine.delayBufferSize : Int)).tmod (demoEngine.delayBufferSize : Int) ∧
        0 ≤ r.readPos ∧ r.readPos < (demoEngine.delayBufferSize : Int) ∧
        0 ≤ r.localWritePos ∧ r.localWritePos < (demoEngine.delayBufferSize : Int) :=
  indices_in_bounds (idKit ℚ) demoEngine (by simp [DelayEffect.WF, demoEngine])
    (by simp [demoEngine]) (by simp [DelayEffect.CursorOK, demoEngine]) 9999
    ⟨3, [[5, 6, 7]]⟩ (by simp [demoEngine])

/-- C7 (as the code behaves). Delay-length invariant: in every state reached by
a sequence of calls (`prepare`, the setters, `clear`, `process`) in which a
`setDelayTime` call has come after the last `prepare`, if the capacity is at
least 2 then `1 ≤ delayInSamples ≤ capacity - 1`.  (`prepare` itself does not
touch `delayInSamples`; the clamp lives in `setDelayTime`, which `readAPVTS`
calls after every `prepare`.) -/
theorem delay_length_invariant [FloorRing α] (K : IIRKit α κ σ) (e0 e : DelayEffect α κ σ)
    (pre post : List (Call α)) (delayTime : α)
    (hpost : ∀ c ∈ post, c.isPrepare = false)
    (hrun : run K e0 (pre ++ Call.setDelayTime delayTime :: post) = some e)
    (hC : 2 ≤ e.delayBufferSize) : e.DelayOK := by
  obtain ⟨e1, -, h2⟩ := run_append K pre _ e0 e hrun
  have h3 : run K (setDelayTime e1 delayTime) post = some e := h2
  have h4 := run_size_delay K post _ e hpost h3
  have hsz : e.delayBufferSize = e1.delayBufferSize := h4.1
  have hC1 : 2 ≤ e1.delayBufferSize := by rw [← hsz]; exact hC
  exact h4.2 (fun _ => setDelayTime_delayOK e1 delayTime hC1) hC1

theorem delay_length_invariant_witness :
    (setFeedback (clear { preparedBiquad with delayInSamples := 2 }) 0).DelayOK :=
  delay_length_invariant biquadKit DelayEffect.initial
    (setFeedback (clear { preparedBiquad with delayInSamples := 2 }) 0)
    [Call.prepare 4 1 1] [Call.clear, Call.setFeedback 0] 500
    (by simp [Call.isPrepare])
    (by
      have ht : truncToInt (4 : ℚ) = 4 := by norm_num [truncToInt]
      have hp : prepare biquadKit DelayEffect.initial 4 1 1 = some preparedBiquad := by
        simp [prepare, ht, preparedBiquad, DelayEffect.initial, biquadKit, List.replicate]
      have hs : setDelayTime preparedBiquad 500 = { preparedBiquad with delayInSamples := 2 } := by
        unfold setDelayTime
        rw [show preparedBiquad.sampleRate = 4 from rfl, delaySamplesOf_500_4]
        simp [preparedBiquad, jlimit]
      simp only [List.singleton_append, run, applyCall, hp, hs])
    (by simp [setFeedback, clear, preparedBiquad])

/-- C7, the claim as stated fails: directly after `prepare (4.0, 1, 1.0f)` on a
default-constructed engine the capacity is 4 and `delayInSamples` is still 0;
and after `prepare (4.0, 1, 2.0f)`, `setDelayTime (1500)`, `prepare (4.0, 1, 1.0f)`
the capacity is 4 and `delayInSamples` is still 6. -/
theorem delay_length_invariant_fails_after_prepare :
    (∃ e, run biquadKit DelayEffect.initial [Call.prepare 4 1 1] = some e ∧
      e.delayBufferSize = 4 ∧ e.delayInSamples = 0 ∧ ¬ e.DelayOK) ∧
    (∃ e, run biquadKit DelayEffect.initial
        [Call.prepare 4 1 2, Call.setDelayTime 1500, Call.prepare 4 1 1] = some e ∧
      e.delayBufferSize = 4 ∧ e.delayInSamples = 6 ∧ ¬ e.DelayOK) := by
  have ht : truncToInt ((1 : ℚ) * 4) = 4 := by norm_num [truncToInt]
  have ht8 : truncToInt ((2 : ℚ) * 4) = 8 := by norm_num [truncToInt]
  constructor
  · obtain ⟨e, he⟩ := prepare_eq_some biquadKit (DelayEffect.initial) (4 : ℚ) 1 1 (by decide)
      (by rw [ht]; decide)
    obtain ⟨-, hsz, -, -, -, hdl, -⟩ := prepare_spec biquadKit _ e 4 1 1 he
    rw [ht] at hsz
    have hd0 : e.delayInSamples = 0 := hdl
    refine ⟨e, by simp only [run, applyCall, he], by omega, hd0, ?_⟩
    unfold DelayEffect.DelayOK
    omega
  · obtain ⟨e1, he1⟩ := prepare_eq_some biquadKit (DelayEffect.initial) (4 : ℚ) 1 2 (by decide)
      (by rw [ht8]; decide)
    obtain ⟨-, hsz1, -, hr1, -, -, -⟩ := prepare_spec biquadKit _ e1 4 1 2 he1
    rw [ht8] at hsz1
    have hd1 : (setDelayTime e1 1500).delayInSamples = 6 := by
      rw [setDelayTime_delay, hr1, delaySamplesOf_1500_4,
        show ((e1.delayBufferSize : Int) - 1) = 7 by omega]
      decide
    obtain ⟨e2, he2⟩ := prepare_eq_some biquadKit (setDelayTime e1 1500) (4 : ℚ) 1 1 (by decide)
      (by rw [ht]; decide)
    obtain ⟨-, hsz2, -, -, -, hdl2, -⟩ := prepare_spec biquadKit _ e2 4 1 1 he2
    rw [ht] at hsz2
    rw [hd1] at hdl2
    refine ⟨e2, by simp only [run, applyCall, he1, he2], by omega, hdl2, ?_⟩
    unfold DelayEffect.DelayOK
    omega

/-- C8. Feedback mapping, with `std::pow` the real power: for every engine state
and raw parameter values, with `T` the delay time `getDelayTime` returns after
`readAPVTS` has set the delay length and `D = max (0.001, decayMs / 1000)`, the
feedback `readAPVTS` stores is `0.001 ^ (T / D)` clamped into `[0, 0.995]`; it
lies in `[0, 0.995]`, and `T` is also what `getDelayTime` returns afterwards. -/
theorem feedback_mapping {κ σ : Type} (K : IIRKit ℝ κ σ) (e : DelayEffect ℝ κ σ)
    (p : RawParams ℝ) :
    (readAPVTS K (fun x y : ℝ => x ^ y) e p).feedback
        = min (199 / 200) (max 0
            ((1 / 1000 : ℝ) ^ (getDelayTime (setDelayTime e p.delayTime)
              / max (1 / 1000) (p.decayTimeMs / 1000)))) ∧
      0 ≤ (readAPVTS K (fun x y : ℝ => x ^ y) e p).feedback ∧
      (readAPVTS K (fun x y : ℝ => x ^ y) e p).feedback ≤ 199 / 200 ∧
      getDelayTime (readAPVTS K (fun x y : ℝ => x ^ y) e p)
        = getDelayTime (setDelayTime e p.delayTime) := by
  have hf := readAPVTS_feedback K (fun x y : ℝ => x ^ y) e p
  have hm := decayFeedback_mem (fun x y : ℝ => x ^ y)
    (getDelayTime (setDelayTime e p.delayTime)) p.decayTimeMs
  refine ⟨?_, by rw [hf]; exact hm.1, by rw [hf]; exact hm.2, getDelayTime_readAPVTS K _ e p⟩
  rw [hf]
  unfold decayFeedback
  rw [jlimit_eq_min_max _ _ _ (by norm_num), show p.decayTimeMs * (1 / 1000) = p.decayTimeMs / 1000
    by ring]

/-- C9 (as the code behaves). Feedback monotonicity: for every fixed delay time
`T > 0` and decay parameters `d1 ≤ d2` (milliseconds), the feedback computed by
the mapper (`0.001 ^ (T / D)` clamped to `[0, 0.995]`, `D = max (0.001, d / 1000)`)
is monotonically non-decreasing in the decay time:
`feedback (T, d1) ≤ feedback (T, d2)`. -/
theorem feedback_monotone_in_decay (T d1 d2 : ℝ) (hT : 0 < T) (h : d1 ≤ d2) :
    decayFeedback (fun x y : ℝ => x ^ y) T d1 ≤ decayFeedback (fun x y : ℝ => x ^ y) T d2 := by
  unfold decayFeedback
  apply jlimit_mono _ _ _ _ (by norm_num)
  have hD : max (1 / 1000 : ℝ) (d1 * (1 / 1000)) ≤ max (1 / 1000 : ℝ) (d2 * (1 / 1000)) :=
    max_le_max (le_refl _) (by nlinarith)
  have hdiv : T / max (1 / 1000 : ℝ) (d2 * (1 / 1000)) ≤ T / max (1 / 1000 : ℝ) (d1 * (1 / 1000)) :=
    div_le_div_of_nonneg_left (le_of_lt hT) (decayFloor_pos d1) hD
  exact Real.rpow_le_rpow_of_exponent_ge (by norm_num) (by norm_num) hdiv

theorem feedback_monotone_in_decay_witness :
    decayFeedback (fun x y : ℝ => x ^ y) 2 1000 ≤ decayFeedback (fun x y : ℝ => x ^ y) 2 2000 :=
  feedback_monotone_in_decay 2 1000 2000 (by norm_num) (by norm_num)

/-- C9, the claim as stated fails: with delay time `T = 2` s, decay time 1000 ms
gives feedback `0.001 ^ 2` and the longer decay time 2000 ms gives the larger
feedback `0.001`, so the feedback is not decreasing in the decay time. -/
theorem feedback_not_decreasing_in_decay :
    decayFeedback (fun x y : ℝ => x ^ y) 2 1000 = 1 / 1000000 ∧
    decayFeedback (fun x y : ℝ => x ^ y) 2 2000 = 1 / 1000 ∧
    ¬ (decayFeedback (fun x y : ℝ => x ^ y) 2 1000
        ≥ decayFeedback (fun x y : ℝ => x ^ y) 2 2000) := by
  have h1 : decayFeedback (fun x y : ℝ => x ^ y) 2 1000 = 1 / 1000000 := by
    unfold decayFeedback
    have hD : max (1 / 1000 : ℝ) (1000 * (1 / 1000)) = 1 := by norm_num
    simp only [hD]
    have hp : (1 / 1000 : ℝ) ^ ((2 : ℝ) / 1) = 1 / 1000000 := by
      rw [div_one, Real.rpow_two]; norm_num
    rw [hp]
    exact jlimit_eq_self _ _ _ (by norm_num) (by norm_num)
  have h2 : decayFeedback (fun x y : ℝ => x ^ y) 2 2000 = 1 / 1000 := by
    unfold decayFeedback
    have hD : max (1 / 1000 : ℝ) (2000 * (1 / 1000)) = 2 := by norm_num
    simp only [hD]
    have hp : (1 / 1000 : ℝ) ^ ((2 : ℝ) / 2) = 1 / 1000 := by
      rw [div_self (by norm_num), Real.rpow_one]
    rw [hp]
    exact jlimit_eq_self _ _ _ (by norm_num) (by norm_num)
  refine ⟨h1, h2, ?_⟩
  rw [h1, h2]
  norm_num

/-- C10 (as the code behaves). Non-positive times: when the delay time `T` the
mapper reads back is non-positive, `readAPVTS` stores the feedback `0.995` (the
upper clamp); otherwise, when the decay parameter `decayMs` is non-positive, the
decay time is floored to 1 ms and the stored feedback is `0.001 ^ (1000 * T)`
clamped into `[0, 0.995]`. -/
theorem nonpositive_time_feedback {κ σ : Type} (K : IIRKit ℝ κ σ) (e : DelayEffect ℝ κ σ)
    (p : RawParams ℝ)
    (h : getDelayTime (setDelayTime e p.delayTime) ≤ 0 ∨ p.decayTimeMs ≤ 0) :
    (readAPVTS K (fun x y : ℝ => x ^ y) e p).feedback
      = if getDelayTime (setDelayTime e p.delayTime) ≤ 0 then 199 / 200
        else jlimit 0 (199 / 200)
          ((1 / 1000 : ℝ) ^ (1000 * getDelayTime (setDelayTime e p.delayTime))) := by
  rw [readAPVTS_feedback]
  split_ifs with hT
  · exact decayFeedback_nonpos_delay _ _ hT
  · rcases h with h | h
    · exact absurd h hT
    · exact decayFeedback_nonpos_decay (fun x y : ℝ => x ^ y) _ _ h

theorem nonpositive_time_feedback_witness :
    (readAPVTS (idKit ℝ) (fun x y : ℝ => x ^ y)
        { (DelayEffect.initial : DelayEffect ℝ Unit Unit) with delayBufferSize := 88200 }
        ⟨10, 0, 35, 100, 20, 20000⟩).feedback
      = if getDelayTime (setDelayTime
            { (DelayEffect.initial : DelayEffect ℝ Unit Unit) with delayBufferSize := 88200 }
            10) ≤ 0
        then 199 / 200
        else jlimit 0 (199 / 200)
          ((1 / 1000 : ℝ) ^ (1000 * getDelayTime (setDelayTime
            { (DelayEffect.initial : DelayEffect ℝ Unit Unit) with delayBufferSize := 88200 }
            10))) :=
  nonpositive_time_feedback (idKit ℝ)
    { (DelayEffect.initial : DelayEffect ℝ Unit Unit) with delayBufferSize := 88200 }
    ⟨10, 0, 35, 100, 20, 20000⟩ (Or.inr (le_refl _))

/-- C10, the claim as stated fails: after `prepare (44100, 1, 2.0f)`, `readAPVTS`
with delay time 10 ms and decay time 0 ms stores the feedback `0.001 ^ 10`, which
is not 0. -/
theorem nonpositive_decay_feedback_not_zero :
    ∃ e, prepare (idKit ℝ) DelayEffect.initial 44100 1 2 = some e ∧
      (readAPVTS (idKit ℝ) (fun x y : ℝ => x ^ y) e ⟨10, 0, 35, 100, 20, 20000⟩).feedback
        = (1 / 1000 : ℝ) ^ (10 : ℕ) ∧
      (readAPVTS (idKit ℝ) (fun x y : ℝ => x ^ y) e ⟨10, 0, 35, 100, 20, 20000⟩).feedback
        ≠ 0 := by
  have ht : truncToInt ((2 : ℝ) * 44100) = 88200 := by norm_num [truncToInt]
  obtain ⟨e, he⟩ := prepare_eq_some (idKit ℝ) DelayEffect.initial 44100 1 2 (by norm_num)
    (by rw [ht]; norm_num)
  obtain ⟨-, hsize, -, hrate, -⟩ := prepare_spec (idKit ℝ) DelayEffect.initial e 44100 1 2 he
  rw [ht] at hsize
  have hd : (setDelayTime e (10 : ℝ)).delayInSamples = 441 := by
    rw [setDelayTime_delay, hrate, delaySamplesOf_10_44100,
      show ((e.delayBufferSize : Int) - 1) = 88199 by omega]
    decide
  have hT : getDelayTime (setDelayTime e (10 : ℝ)) = 1 / 100 := by
    unfold getDelayTime
    rw [hd]
    show ((441 : Int) : ℝ) / e.sampleRate = 1 / 100
    rw [hrate]; norm_num
  have hval : (readAPVTS (idKit ℝ) (fun x y : ℝ => x ^ y) e
      ⟨10, 0, 35, 100, 20, 20000⟩).feedback = (1 / 1000 : ℝ) ^ (10 : ℕ) := by
    rw [readAPVTS_feedback, hT, decayFeedback_nonpos_decay _ _ _ (le_refl _)]
    have hp : (1 / 1000 : ℝ) ^ ((1000 : ℝ) * (1 / 100)) = (1 / 1000 : ℝ) ^ (10 : ℕ) := by
      rw [show (1000 : ℝ) * (1 / 100) = ((10 : ℕ) : ℝ) by norm_num, Real.rpow_natCast]
    show jlimit 0 (199 / 200) ((1 / 1000 : ℝ) ^ ((1000 : ℝ) * (1 / 100))) = _
    rw [hp]
    exact jlimit_eq_self _ _ _ (by positivity) (by norm_num)
  refine ⟨e, he, hval, ?_⟩
  rw [hval]
  positivity

/-- C11. Tail length, with `std::log` the real logarithm: for every engine state
`getTailLengthSeconds` returns 0 when the feedback `f ≤ 0` or the delay time
`T ≤ 0`, and otherwise `T * ln (0.001) / ln (max (0.0001, f))`.  Consequently,
on an engine with positive sample rate and capacity at least 2 (so that the
delay time the mapper sets is positive), after `readAPVTS` the reported tail is
`T * ln (0.001) / ln (f)` for the stored feedback `f` whenever `f ≥ 0.0001`. -/
theorem tail_length {κ σ : Type} (K : IIRKit ℝ κ σ) (e : DelayEffect ℝ κ σ)
    (p : RawParams ℝ) (hsr : 0 < e.sampleRate) (hC : 2 ≤ e.delayBufferSize) :
    (∀ e0 : DelayEffect ℝ κ σ,
      getTailLengthSeconds Real.log e0
        = if e0.feedback ≤ 0 ∨ getDelayTime e0 ≤ 0 then 0
          else getDelayTime e0 * Real.log (1 / 1000)
            / Real.log (max (1 / 10000) e0.feedback)) ∧
    (1 / 10000 ≤ (readAPVTS K (fun x y : ℝ => x ^ y) e p).feedback →
      getTailLengthSeconds Real.log (readAPVTS K (fun x y : ℝ => x ^ y) e p)
        = getDelayTime (readAPVTS K (fun x y : ℝ => x ^ y) e p) * Real.log (1 / 1000)
          / Real.log (readAPVTS K (fun x y : ℝ => x ^ y) e p).feedback) := by
  have hgen : ∀ e0 : DelayEffect ℝ κ σ,
      getTailLengthSeconds Real.log e0
        = if e0.feedback ≤ 0 ∨ getDelayTime e0 ≤ 0 then 0
          else getDelayTime e0 * Real.log (1 / 1000)
            / Real.log (max (1 / 10000) e0.feedback) := by
    intro e0
    unfold getTailLengthSeconds getFeedback
    dsimp only
    split_ifs
    · rfl
    · rw [mul_div_assoc]
  refine ⟨hgen, ?_⟩
  intro hf
  have hT : 0 < getDelayTime (readAPVTS K (fun x y : ℝ => x ^ y) e p) := by
    rw [getDelayTime_readAPVTS]
    exact getDelayTime_pos e p.delayTime hsr hC
  have hfpos : 0 < (readAPVTS K (fun x y : ℝ => x ^ y) e p).feedback :=
    lt_of_lt_of_le (by norm_num) hf
  rw [hgen, if_neg (by
    intro h
    rcases h with h | h
    · exact absurd hfpos (not_lt.mpr h)
    · exact absurd hT (not_lt.mpr h)), max_eq_right hf]

theorem tail_length_witness :
    (∀ e0 : DelayEffect ℝ Unit Unit,
      getTailLengthSeconds Real.log e0
        = if e0.feedback ≤ 0 ∨ getDelayTime e0 ≤ 0 then 0
          else getDelayTime e0 * Real.log (1 / 1000)
            / Real.log (max (1 / 10000) e0.feedback)) ∧
    (1 / 10000 ≤ (readAPVTS (idKit ℝ) (fun x y : ℝ => x ^ y)
        { (DelayEffect.initial : DelayEffect ℝ Unit Unit) with delayBufferSize := 88200 }
        ⟨500, 2000, 35, 100, 20, 20000⟩).feedback →
      getTailLengthSeconds Real.log (readAPVTS (idKit ℝ) (fun x y : ℝ => x ^ y)
        { (DelayEffect.initial : DelayEffect ℝ Unit Unit) with delayBufferSize := 88200 }
        ⟨500, 2000, 35, 100, 20, 20000⟩)
        = getDelayTime (readAPVTS (idKit ℝ) (fun x y : ℝ => x ^ y)
          { (DelayEffect.initial : DelayEffect ℝ Unit Unit) with delayBufferSize := 88200 }
          ⟨500, 2000, 35, 100, 20, 20000⟩) * Real.log (1 / 1000)
          / Real.log (readAPVTS (idKit ℝ) (fun x y : ℝ => x ^ y)
          { (DelayEffect.initial : DelayEffect ℝ Unit Unit) with delayBufferSize := 88200 }
          ⟨500, 2000, 35, 100, 20, 20000⟩).feedback) :=
  tail_length (idKit ℝ)
    { (DelayEffect.initial : DelayEffect ℝ Unit Unit) with delayBufferSize := 88200 }
    ⟨500, 2000, 35, 100, 20, 20000⟩
    (by show (0 : ℝ) < 44100; norm_num) (by show 2 ≤ 88200; norm_num)

/-- C12 (as the code behaves). Setters clamp to the nearest valid bound: for
every argument `v`, `setFeedback` stores `min (0.995, max (0, v))`, `setWet` and
`setDry` store `min (1, max (0, v / 100))`, `setHighPassCutoff` stores
`min (10000, max (20, v))`, `setLowPassCutoff` stores `min (20000, max (25, v))`
and, the capacity `C` being at least 2, `setDelayTime` stores
`min (C - 1, max (1, n))`, a value in `[1, C - 1]`, where `n` is the machine
value `delaySamplesOf v sampleRate` of `(int)(v * 0.001f * sampleRate)`: the
product `v * 0.001f` rounded to `float`, times `sampleRate` rounded to `double`,
converted to `int`.  For `v ≥ 1`, `sampleRate ≥ 1` and
`v * 0.001 * sampleRate < 2 ^ 22` the stored value is within one sample of
`min (C - 1, max (1, trunc (v * 0.001 * sampleRate)))`.  500 ms at 44100 Hz with
capacity 88200 gives 22050.  Each setter call is defined for every argument. -/
theorem setters_clamp [FloorRing α] (K : IIRKit α κ σ) (e : DelayEffect α κ σ) (v : α)
    (hC : 2 ≤ e.delayBufferSize) :
    (setFeedback e v).feedback = min (199 / 200) (max 0 v) ∧
    (setWet e v).wet = min 1 (max 0 (v / 100)) ∧
    (setDry e v).dry = min 1 (max 0 (v / 100)) ∧
    (setHighPassCutoff K e v).hpCutoff = min 10000 (max 20 v) ∧
    (setLowPassCutoff K e v).lpCutoff = min 20000 (max 25 v) ∧
    (setDelayTime e v).delayInSamples
      = min ((e.delayBufferSize : Int) - 1) (max 1 (delaySamplesOf v e.sampleRate)) ∧
    1 ≤ (setDelayTime e v).delayInSamples ∧
    (setDelayTime e v).delayInSamples ≤ (e.delayBufferSize : Int) - 1 ∧
    (1 ≤ v → 1 ≤ e.sampleRate → v * (1 / 1000) * e.sampleRate < 4194304 →
      min ((e.delayBufferSize : Int) - 1)
          (max 1 (truncToInt (v * (1 / 1000) * e.sampleRate))) - 1
        ≤ (setDelayTime e v).delayInSamples ∧
      (setDelayTime e v).delayInSamples
        ≤ min ((e.delayBufferSize : Int) - 1)
            (max 1 (truncToInt (v * (1 / 1000) * e.sampleRate))) + 1) ∧
    (setDelayTime { e with sampleRate := 44100, delayBufferSize := 88200 } 500).delayInSamples
      = 22050 ∧
    (∀ c : Call α, c.isPrepare = false → (∀ b, c ≠ Call.process b) →
      ∃ e1, applyCall K e c = some e1) := by
  have hmem := jlimit_mem (1 : Int) ((e.delayBufferSize : Int) - 1)
    (delaySamplesOf v e.sampleRate) (by omega)
  have hmm : (setDelayTime e v).delayInSamples
      = min ((e.delayBufferSize : Int) - 1) (max 1 (delaySamplesOf v e.sampleRate)) := by
    rw [setDelayTime_delay]
    exact jlimit_eq_min_max _ _ _ (by omega)
  refine ⟨jlimit_eq_min_max _ _ _ (by norm_num), jlimit_eq_min_max _ _ _ (by norm_num),
    jlimit_eq_min_max _ _ _ (by norm_num), ?_, ?_, hmm, ?_, ?_, ?_, ?_, ?_⟩
  · rw [(setHighPassCutoff_cutoffs K e v).1]
    exact jlimit_eq_min_max _ _ _ (by norm_num)
  · rw [(setLowPassCutoff_cutoffs K e v).1]
    exact jlimit_eq_min_max _ _ _ (by norm_num)
  · rw [setDelayTime_delay]
    exact hmem.1
  · rw [setDelayTime_delay]
    exact hmem.2
  · intro hv hsr hE
    obtain ⟨h1, h2⟩ := delaySamplesOf_near v e.sampleRate hv hsr hE
    rw [hmm]
    simp only [min_def, max_def]
    split_ifs <;> omega
  · rw [setDelayTime_delay]
    show jlimit 1 (((88200 : Nat) : Int) - 1) (delaySamplesOf (500 : α) 44100) = 22050
    rw [delaySamplesOf_500_44100]
    decide
  · intro c hc hnp
    cases c with
    | prepare sr ch md => simp [Call.isPrepare] at hc
    | setDelayTime t => exact ⟨_, rfl⟩
    | setFeedback t => exact ⟨_, rfl⟩
    | setWet t => exact ⟨_, rfl⟩
    | setDry t => exact ⟨_, rfl⟩
    | setHighPassCutoff t => exact ⟨_, rfl⟩
    | setLowPassCutoff t => exact ⟨_, rfl⟩
    | clear => exact ⟨_, rfl⟩
    | process b => exact absurd rfl (hnp b)

theorem setters_clamp_witness :
    (setFeedback demoEngine 7).feedback = min (199 / 200) (max 0 7) ∧
    (setWet demoEngine 7).wet = min 1 (max 0 (7 / 100)) ∧
    (setDry demoEngine 7).dry = min 1 (max 0 (7 / 100)) ∧
    (setHighPassCutoff (idKit ℚ) demoEngine 7).hpCutoff = min 10000 (max 20 7) ∧
    (setLowPassCutoff (idKit ℚ) demoEngine 7).lpCutoff = min 20000 (max 25 7) ∧
    (setDelayTime demoEngine 7).delayInSamples
      = min ((demoEngine.delayBufferSize : Int) - 1)
          (max 1 (delaySamplesOf (7 : ℚ) demoEngine.sampleRate)) ∧
    1 ≤ (setDelayTime demoEngine 7).delayInSamples ∧
    (setDelayTime demoEngine 7).delayInSamples ≤ (demoEngine.delayBufferSize : Int) - 1 ∧
    (min ((demoEngine.delayBufferSize : Int) - 1)
          (max 1 (truncToInt ((7 : ℚ) * (1 / 1000) * demoEngine.sampleRate))) - 1
        ≤ (setDelayTime demoEngine 7).delayInSamples ∧
      (setDelayTime demoEngine 7).delayInSamples
        ≤ min ((demoEngine.delayBufferSize : Int) - 1)
            (max 1 (truncToInt ((7 : ℚ) * (1 / 1000) * demoEngine.sampleRate))) + 1) ∧
    (setDelayTime { demoEngine with sampleRate := 44100, delayBufferSize := 88200 }
      500).delayInSamples = 22050 ∧
    (∀ c : Call ℚ, c.isPrepare = false → (∀ b, c ≠ Call.process b) →
      ∃ e1, applyCall (idKit ℚ) demoEngine c = some e1) := by
  obtain ⟨h1, h2, h3, h4, h5, h6, h7, h8, h9, h10, h11⟩ :=
    setters_clamp (idKit ℚ) demoEngine 7 (by simp [demoEngine])
  exact ⟨h1, h2, h3, h4, h5, h6, h7, h8,
    h9 (by norm_num) (by show (1 : ℚ) ≤ 4; norm_num)
      (by show (7 : ℚ) * (1 / 1000) * 4 < 4194304; norm_num),
    h10, h11⟩

/-- C12, the claim as stated fails.  After `prepare (48000, 1, 2.0f)` (capacity
96000) the call `setDelayTime (33)` stores 1583, while
`min (C - 1, max (1, trunc (33 * 0.001 * 48000)))` is 1584: the `float` product
`33 * 0.001f` lies below 0.033.  After `prepare (44100, 1, 2.0f)` (capacity
88200) the call `setDelayTime (1e10)` stores 1, while the claimed value is
`C - 1 = 88199`: the product `4.41e11` is out of the range of `int`. -/
theorem setters_clamp_delay_not_exact :
    (∃ e, prepare (idKit ℚ) DelayEffect.initial 48000 1 2 = some e ∧
      e.delayBufferSize = 96000 ∧
      (setDelayTime e 33).delayInSamples = 1583 ∧
      min ((e.delayBufferSize : Int) - 1)
        (max 1 (truncToInt ((33 : ℚ) * (1 / 1000) * e.sampleRate))) = 1584) ∧
    (∃ e, prepare (idKit ℚ) DelayEffect.initial 44100 1 2 = some e ∧
      e.delayBufferSize = 88200 ∧
      (setDelayTime e 10000000000).delayInSamples = 1 ∧
      min ((e.delayBufferSize : Int) - 1)
        (max 1 (truncToInt ((10000000000 : ℚ) * (1 / 1000) * e.sampleRate))) = 88199) := by
  constructor
  · have ht : truncToInt ((2 : ℚ) * 48000) = 96000 := by norm_num [truncToInt]
    obtain ⟨e, he⟩ := prepare_eq_some (idKit ℚ) DelayEffect.initial 48000 1 2 (by norm_num)
      (by rw [ht]; norm_num)
    obtain ⟨-, hsize, -, hrate, -⟩ := prepare_spec (idKit ℚ) DelayEffect.initial e 48000 1 2 he
    rw [ht] at hsize
    have hx : truncToInt ((33 : ℚ) * (1 / 1000) * 48000) = 1584 := by norm_num [truncToInt]
    refine ⟨e, he, by omega, ?_, ?_⟩
    · rw [setDelayTime_delay, hrate, delaySamplesOf_33_48000,
        show ((e.delayBufferSize : Int) - 1) = 95999 by omega]
      decide
    · rw [hrate, hx, show ((e.delayBufferSize : Int) - 1) = 95999 by omega]
      decide
  · have ht : truncToInt ((2 : ℚ) * 44100) = 88200 := by norm_num [truncToInt]
    obtain ⟨e, he⟩ := prepare_eq_some (idKit ℚ) DelayEffect.initial 44100 1 2 (by norm_num)
      (by rw [ht]; norm_num)
    obtain ⟨-, hsize, -, hrate, -⟩ := prepare_spec (idKit ℚ) DelayEffect.initial e 44100 1 2 he
    rw [ht] at hsize
    have hx : truncToInt ((10000000000 : ℚ) * (1 / 1000) * 44100) = 441000000000 := by
      norm_num [truncToInt]
    refine ⟨e, he, by omega, ?_, ?_⟩
    · rw [setDelayTime_delay, hrate, delaySamplesOf_huge_44100,
        show ((e.delayBufferSize : Int) - 1) = 88199 by omega]
      decide
    · rw [hrate, hx, show ((e.delayBufferSize : Int) - 1) = 88199 by omega]
      decide

/-- C13, the code at the failing input: a default-constructed engine has
`wet = 50` and `dry = 100`, outside `[0, 1]`; `prepare (4.0, 1, 1.0f)` and
`setDelayTime (250)` keep them, and `process` of the one-sample block `[1]` then
outputs `dry * 1 = 100` and still leaves `wet = 50`, `dry = 100`. -/
theorem default_mix_gains_out_of_range :
    (DelayEffect.initial : DelayEffect ℚ Biquad (ℚ × ℚ)).wet = 50 ∧
    (DelayEffect.initial : DelayEffect ℚ Biquad (ℚ × ℚ)).dry = 100 ∧
    ¬ ((DelayEffect.initial : DelayEffect ℚ Biquad (ℚ × ℚ)).wet ≤ 1) ∧
    ¬ ((DelayEffect.initial : DelayEffect ℚ Biquad (ℚ × ℚ)).dry ≤ 1) ∧
    prepare biquadKit DelayEffect.initial 4 1 1 = some preparedBiquad ∧
    ∃ e1, process biquadKit (setDelayTime preparedBiquad 250) ⟨1, [[1]]⟩
        = some (e1, ⟨1, [[100]]⟩) ∧ e1.wet = 50 ∧ e1.dry = 100 := by
  refine ⟨rfl, rfl, ?_, ?_, ?_, ?_⟩
  · simp only [DelayEffect.initial]; norm_num
  · simp only [DelayEffect.initial]; norm_num
  · have ht : truncToInt (4 : ℚ) = 4 := by norm_num [truncToInt]
    simp [prepare, ht, preparedBiquad, DelayEffect.initial, biquadKit, List.replicate]
  · have hs : setDelayTime preparedBiquad 250 = { preparedBiquad with delayInSamples := 1 } := by
      unfold setDelayTime
      rw [show preparedBiquad.sampleRate = 4 from rfl, delaySamplesOf_250_4]
      simp [preparedBiquad, jlimit]
    rw [hs]
    simp [process, processTrace, processChannels, channelLoop, sampleStep, readAt, writeAt,
      filterPair, nextWritePos, biquadKit, preparedBiquad, Int.tmod]

/-- C16. Shared write cursor: take an engine with capacity `C ≥ 1` and write
cursor `0 ≤ w < C` and a rectangular block of `m` samples with any number of
channels.  Whenever `process` is defined it leaves the write cursor at
`(w + m) mod C`, inside `[0, C)`, with the capacity unchanged, and every
channel of the block has run `m` iterations whose write positions are
`(w + j) mod C` for `j = 0, 1, ...`, the same for all channels; `process` is
defined when the rows have the capacity, the delay length lies in `[0, C]` and
the block has at most the engine's channel count.  The cursor is also inside
`[0, C)` after `clear` and after every `prepare` that leaves capacity at least
1. -/
theorem shared_write_cursor [FloorRing α] (K : IIRKit α κ σ) (e : DelayEffect α κ σ)
    (b : AudioBuffer α) (hC : 1 ≤ e.delayBufferSize) (hcur : e.CursorOK) (hrect : b.Rect) :
    (∀ e1 trs, processTrace K e b = some (e1, trs) →
      e1.writePosition = (e.writePosition + (b.numSamples : Int)) % (e.delayBufferSize : Int) ∧
      e1.CursorOK ∧ e1.delayBufferSize = e.delayBufferSize ∧
      trs.length = b.channels.length ∧
      ∀ tr ∈ trs, tr.length = b.numSamples ∧
        ∀ (j : Nat) (r : SampleTrace α), tr[j]? = some r →
          r.localWritePos = (e.writePosition + (j : Int)) % (e.delayBufferSize : Int)) ∧
    (∀ e1 b1, process K e b = some (e1, b1) →
      e1.writePosition = (e.writePosition + (b.numSamples : Int)) % (e.delayBufferSize : Int) ∧
      e1.CursorOK) ∧
    (e.WF → e.DelayInRange → b.channels.length ≤ e.channels.length →
      ∃ e1 b1, process K e b = some (e1, b1)) ∧
    (clear e).CursorOK ∧
    (∀ sr channels maxDelayTime e1, prepare K e sr channels maxDelayTime = some e1 →
      1 ≤ e1.delayBufferSize → e1.CursorOK) := by
  refine ⟨?_, ?_, ?_, ?_, ?_⟩
  · intro e1 trs h
    have hc := processTrace_cursor K e e1 b trs hcur h
    have hf := (processTrace_fields K e e1 b trs h).1
    have hpc : processChannels K e e.channels b.channels = some (e1.channels, trs) := by
      unfold processTrace at h
      cases hp : processChannels K e e.channels b.channels with
      | none => rw [hp] at h; simp at h
      | some r =>
        obtain ⟨cs, trs'⟩ := r
        rw [hp] at h
        simp only at h
        split_ifs at h
        have h1 := Prod.mk.inj (Option.some.inj h)
        rw [← h1.1, ← h1.2]
    have hp := processChannels_positions K e hcur _ _ _ _ hpc
    refine ⟨hc.1, hc.2, hf, hp.1, ?_⟩
    intro tr htr
    obtain ⟨ch, hch⟩ := List.mem_iff_getElem?.mp htr
    obtain ⟨x, hx, hlen, hpos⟩ := hp.2 ch tr hch
    exact ⟨by rw [hlen]; exact hrect x (List.mem_iff_getElem?.mpr ⟨ch, hx⟩), hpos⟩
  · intro e1 b1 h
    obtain ⟨trs, htr⟩ := process_some_trace K e e1 b b1 h
    exact processTrace_cursor K e e1 b trs hcur htr
  · intro hwf hd hb
    exact ⟨_, _, process_eq K e hwf hd hcur b hb⟩
  · exact ⟨le_refl _, by show (0 : Int) < (e.delayBufferSize : Int); omega⟩
  · intro sr channels maxDelayTime e1 h h1
    obtain ⟨-, -, -, -, hw, -⟩ := prepare_spec K e e1 sr channels maxDelayTime h
    unfold DelayEffect.CursorOK
    rw [hw]
    exact ⟨le_refl _, by omega⟩

theorem shared_write_cursor_witness :
    (∃ e1 b1, process (idKit ℚ) demoEngine ⟨3, [[5, 6, 7]]⟩ = some (e1, b1) ∧
      e1.writePosition = (demoEngine.writePosition + ((3 : Nat) : Int))
        % (demoEngine.delayBufferSize : Int) ∧ e1.CursorOK) ∧
    (∃ e1 trs, processTrace (idKit ℚ) demoEngine ⟨3, [[5, 6, 7]]⟩ = some (e1, trs) ∧
      trs.length = 1 ∧
      ∀ tr ∈ trs, tr.length = 3 ∧
        ∀ (j : Nat) (r : SampleTrace ℚ), tr[j]? = some r →
          r.localWritePos = (demoEngine.writePosition + (j : Int))
            % (demoEngine.delayBufferSize : Int)) ∧
    (clear demoEngine).CursorOK := by
  have h := shared_write_cursor (idKit ℚ) demoEngine ⟨3, [[5, 6, 7]]⟩
    (by simp [demoEngine]) (by simp [DelayEffect.CursorOK, demoEngine])
    (by simp [AudioBuffer.Rect])
  obtain ⟨e1, b1, hp⟩ := h.2.2.1 (by simp [DelayEffect.WF, demoEngine])
    (by simp [DelayEffect.DelayInRange, demoEngine]) (by simp [demoEngine])
  obtain ⟨trs, htr⟩ := process_some_trace (idKit ℚ) demoEngine e1 ⟨3, [[5, 6, 7]]⟩ b1 hp
  have h1 := h.1 e1 trs htr
  exact ⟨⟨e1, b1, hp, h.2.1 e1 b1 hp⟩, ⟨e1, trs, htr, h1.2.2.2.1, h1.2.2.2.2⟩, h.2.2.2.1⟩

/-- C17. Block-size independence: for every well-formed engine state with write
cursor inside the buffer and delay length in `[1, capacity - 1]` (so capacity
`≥ 2`), every rectangular block `X` with at most the engine's channel count and
every split position `s ≤ numSamples`, the calls `process (X)`, `process (A)` and
then `process (B)` (`A` the first `s` samples of every channel, `B` the rest) are
all defined; the final engine state after `A` then `B` is the state after `X`
(delay buffer, filter histories, write cursor and parameters), and the output
of `X` is, channel by channel, the output of `A` followed by the output of `B`. -/
theorem block_split_independent (K : IIRKit α κ σ) (e : DelayEffect α κ σ) (hwf : e.WF)
    (hd : e.DelayOK) (hcur : e.CursorOK) (X : AudioBuffer α) (hrect : X.Rect)
    (hX : X.channels.length ≤ e.channels.length) (s : Nat) (hs : s ≤ X.numSamples) :
    ∃ e1 out eA outA outB,
      process K e X = some (e1, out) ∧
      process K e (X.takeSamples s) = some (eA, outA) ∧
      process K eA (X.dropSamples s) = some (e1, outB) ∧
      out.numSamples = outA.numSamples + outB.numSamples ∧
      out.channels = List.zipWith (fun a b => a ++ b) outA.channels outB.channels := by
  have hdr := hd.inRange
  have hc1 := hcur.1
  have hc2 := hcur.2
  have hA : (X.takeSamples s).channels.length ≤ e.channels.length := by
    simpa [AudioBuffer.takeSamples] using hX
  have hpX := process_eq K e hwf hdr hcur X hX
  have hpA := process_eq K e hwf hdr hcur (X.takeSamples s) hA
  -- the state after the first part
  have hspA : SameParams e (processT K e (X.takeSamples s)) :=
    processT_sameParams K e e ⟨rfl, rfl, rfl, rfl, rfl, rfl, rfl⟩ _ hA
  have hwfA : (processT K e (X.takeSamples s)).WF := chansT_wf K e _ _ hwf
  have hwA : (processT K e (X.takeSamples s)).writePosition
      = advancePos (e.delayBufferSize : Int) e.writePosition s := by
    rw [advancePos_eq _ _ _ hc1 hc2]
    show (e.writePosition + ((s : Nat) : Int)).tmod (e.delayBufferSize : Int) = _
    exact Int.tmod_eq_emod (by omega) (by omega)
  have hcurA : (processT K e (X.takeSamples s)).CursorOK := by
    unfold DelayEffect.CursorOK
    rw [hwA, advancePos_eq _ _ _ hc1 hc2]
    exact ⟨Int.emod_nonneg _ (by omega),
      by show _ < (e.delayBufferSize : Int); exact Int.emod_lt_of_pos _ (by omega)⟩
  have hdrA : (processT K e (X.takeSamples s)).DelayInRange := hdr
  have hB : (X.dropSamples s).channels.length
      ≤ (processT K e (X.takeSamples s)).channels.length := by
    rw [hspA.nchan]
    simpa [AudioBuffer.dropSamples] using hX
  have hpB := process_eq K _ hwfA hdrA hcurA (X.dropSamples s) hB
  have hlenX : ∀ x ∈ X.channels, s ≤ x.length := by
    intro x hx
    rw [hrect x hx]; exact hs
  have hsplit := chansT_split K e (processT K e (X.takeSamples s)) hspA s hwA e.channels
    X.channels hlenX
  -- the two final states agree
  have hstate : processT K (processT K e (X.takeSamples s)) (X.dropSamples s)
      = processT K e X := by
    have hch : chansT K (processT K e (X.takeSamples s))
        (chansT K e e.channels (X.channels.map (List.take s)))
        (X.channels.map (List.drop s)) = chansT K e e.channels X.channels := hsplit.1
    have hpos : ((e.writePosition + ((s : Nat) : Int)).tmod (e.delayBufferSize : Int)
        + ((X.numSamples - s : Nat) : Int)).tmod (e.delayBufferSize : Int)
        = (e.writePosition + (X.numSamples : Int)).tmod (e.delayBufferSize : Int) := by
      have hC : (0 : Int) ≤ (e.delayBufferSize : Int) := by omega
      have h1 : (e.writePosition + ((s : Nat) : Int)).tmod (e.delayBufferSize : Int)
          = (e.writePosition + ((s : Nat) : Int)) % (e.delayBufferSize : Int) :=
        Int.tmod_eq_emod (by omega) hC
      have h0 : 0 ≤ (e.writePosition + ((s : Nat) : Int)) % (e.delayBufferSize : Int) :=
        Int.emod_nonneg _ (by omega)
      have h2 : ((e.writePosition + ((s : Nat) : Int)) % (e.delayBufferSize : Int)
          + ((X.numSamples - s : Nat) : Int)).tmod (e.delayBufferSize : Int)
          = ((e.writePosition + ((s : Nat) : Int)) % (e.delayBufferSize : Int)
          + ((X.numSamples - s : Nat) : Int)) % (e.delayBufferSize : Int) :=
        Int.tmod_eq_emod (by omega) hC
      have h3 : (e.writePosition + (X.numSamples : Int)).tmod (e.delayBufferSize : Int)
          = (e.writePosition + (X.numSamples : Int)) % (e.delayBufferSize : Int) :=
        Int.tmod_eq_emod (by omega) hC
      rw [h1, h2, h3, Int.emod_add_emod]
      congr 1
      omega
    exact DelayEffect.eq_of_fields rfl hch hpos rfl rfl rfl rfl rfl rfl rfl rfl
  refine ⟨_, _, _, _, _, hpX, hpA, by rw [← hstate]; exact hpB, ?_, ?_⟩
  · show X.numSamples = s + (X.numSamples - s)
    omega
  · show (tracesT K e e.channels X.channels).map (fun tr => tr.map fun r => r.out)
      = List.zipWith (fun a b => a ++ b)
          ((tracesT K e e.channels (X.channels.map (List.take s))).map
            (fun tr => tr.map fun r => r.out))
          ((tracesT K (processT K e (X.takeSamples s))
            (chansT K e e.channels (X.channels.map (List.take s)))
            (X.channels.map (List.drop s))).map (fun tr => tr.map fun r => r.out))
    rw [← hsplit.2, List.map_zipWith, List.zipWith_map_left, List.zipWith_map_right]
    congr 1
    funext a b
    exact List.map_append _ _ _

theorem block_split_independent_witness :
    ∃ e1 out eA outA outB,
      process (idKit ℚ) demoEngine ⟨3, [[5, 6, 7]]⟩ = some (e1, out) ∧
      process (idKit ℚ) demoEngine (AudioBuffer.takeSamples 1 ⟨3, [[5, 6, 7]]⟩)
        = some (eA, outA) ∧
      process (idKit ℚ) eA (AudioBuffer.dropSamples 1 ⟨3, [[5, 6, 7]]⟩) = some (e1, outB) ∧
      out.numSamples = outA.numSamples + outB.numSamples ∧
      out.channels = List.zipWith (fun a b => a ++ b) outA.channels outB.channels :=
  block_split_independent (idKit ℚ) demoEngine (by simp [DelayEffect.WF, demoEngine])
    (by simp [DelayEffect.DelayOK, demoEngine]) (by simp [DelayEffect.CursorOK, demoEngine])
    ⟨3, [[5, 6, 7]]⟩ (by simp [AudioBuffer.Rect]) (by simp [demoEngine]) 1 (by norm_num)

end Claims

end FilteredDelay
